import Mathlib

/-!
Verification model of the MemFS VS Code web extension
(`src/extension/src/extension.ts`).

The backing store (`@zenfs/core`, reached through its `fs.promises`
surface) is external to the repository; the spec (§6) pins the primitive
interface it must offer: existence check, stat, directory listing, read,
write with exclusive/truncate mode, recursive mkdir, recursive (force)
remove and rename, each failure tagged with one of the codes
not-found / already-exists / is-a-directory / not-a-directory / other.
It is modelled here as a rose tree of named entries with exactly those
primitives.  `vscode.Uri` values are modelled by their posix path
component, as a list of path segments; the provider's `asFsPath` only
checks the scheme and extracts that path, and the scheme check is
orthogonal to every claim treated here.
-/

/-- A node of the backing store: a regular file with raw byte content, a
directory with an ordered list of named children, or an entry whose stat
kind is neither regular file nor directory (symbolic link / unknown). -/
inductive Entry where
  | file (content : List Nat)
  | dir (entries : List (String × Entry))
  | other

/-- An absolute posix path, as its list of segments (`[]` is `/`). -/
abbrev FsPath := List String

/-- First entry with the given name in a directory listing. -/
def findEntry (es : List (String × Entry)) (n : String) : Option Entry :=
  match es with
  | [] => none
  | (m, e) :: rest => if m == n then some e else findEntry rest n

/-- Replace the entries with the given name by `v`. -/
def setEntry : List (String × Entry) → String → Entry → List (String × Entry)
  | [], _, _ => []
  | (m, e) :: rest, n, v =>
    if m == n then (m, v) :: setEntry rest n v else (m, e) :: setEntry rest n v

/-- Drop the entries with the given name. -/
def delEntry : List (String × Entry) → String → List (String × Entry)
  | [], _ => []
  | (m, e) :: rest, n =>
    if m == n then delEntry rest n else (m, e) :: delEntry rest n

/-- Resolve a path inside the store tree. -/
def lookupPath : Entry → FsPath → Option Entry
  | e, [] => some e
  | Entry.dir es, n :: rest =>
    match findEntry es n with
    | some child => lookupPath child rest
    | none => none
  | _, _ :: _ => none

/-- `fs.exists`. -/
def fsExists (e : Entry) (p : FsPath) : Bool :=
  (lookupPath e p).isSome

/-- The backing store's error codes (spec §6). -/
inductive ZErr where
  | ENOENT
  | EEXIST
  | EISDIR
  | ENOTDIR
  | EOTHER
deriving DecidableEq

/-- The `vscode.FileSystemError` variants the provider raises. -/
inductive FsError where
  | FileNotFound
  | FileExists
  | FileIsADirectory
  | Unavailable
deriving DecidableEq

/-- `MemFS.toFileSystemError`: the switch over the native error code;
`ENOTDIR` is folded into `FileNotFound`, anything unrecognised becomes
`Unavailable`. -/
def toFileSystemError : ZErr → FsError
  | .ENOENT => .FileNotFound
  | .EEXIST => .FileExists
  | .EISDIR => .FileIsADirectory
  | .ENOTDIR => .FileNotFound
  | .EOTHER => .Unavailable

/-- Backing-store write, `fs.writeFile(path, content, { flag })`.
`excl = true` is flag `"wx"` (exclusive create), `excl = false` is flag
`"w"` (create or truncate). -/
def fsWriteFile (content : List Nat) (excl : Bool) : Entry → FsPath → Except ZErr Entry
  | e, [] =>
    if excl then .error .EEXIST
    else
      match e with
      | .dir _ => .error .EISDIR
      | _ => .ok (.file content)
  | .dir es, n :: rest =>
    match findEntry es n with
    | some child =>
      match fsWriteFile content excl child rest with
      | .ok child2 => .ok (.dir (setEntry es n child2))
      | .error z => .error z
    | none =>
      match rest with
      | [] => .ok (.dir (es ++ [(n, .file content)]))
      | _ :: _ => .error .ENOENT
  | .file _, _ :: _ => .error .ENOTDIR
  | .other, _ :: _ => .error .ENOTDIR

/-- Backing-store read, `fs.readFile`. -/
def fsReadFile (e : Entry) (p : FsPath) : Except ZErr (List Nat) :=
  match lookupPath e p with
  | some (.file c) => .ok c
  | some (.dir _) => .error .EISDIR
  | some .other => .error .EOTHER
  | none => .error .ENOENT

/-- Remove the entry at a (non-root, resolvable) path, returning the
pruned tree. -/
def removePath : Entry → FsPath → Option Entry
  | .dir es, n :: rest =>
    (match rest with
    | [] =>
      match findEntry es n with
      | some _ => some (.dir (delEntry es n))
      | none => none
    | _ :: _ =>
      match findEntry es n with
      | some child => (removePath child rest).map fun c => Entry.dir (setEntry es n c)
      | none => none)
  | _, _ => none

/-- Backing-store remove, `fs.rm(path, { force, recursive })`.  With
`force`, a path that does not resolve is ignored; removing a directory
needs `recursive`.  Removing the root itself is outside the modelled
store surface. -/
def fsRm (force recursive : Bool) (e : Entry) (p : FsPath) : Except ZErr Entry :=
  match p with
  | [] => .error .EOTHER
  | _ :: _ =>
    match lookupPath e p with
    | none => if force then .ok e else .error .ENOENT
    | some (.dir _) =>
      if recursive then
        match removePath e p with
        | some r => .ok r
        | none => .error .ENOENT
      else .error .EISDIR
    | some _ =>
      match removePath e p with
      | some r => .ok r
      | none => .error .ENOENT

/-- Insert a subtree at a path whose parent exists and which is itself
free; used by the backing store's `rename`. -/
def insertAt : Entry → FsPath → Entry → Except ZErr Entry
  | _, [], _ => .error .EEXIST
  | .dir es, n :: rest, v =>
    (match rest with
    | [] =>
      match findEntry es n with
      | some _ => .error .EEXIST
      | none => .ok (.dir (es ++ [(n, v)]))
    | _ :: _ =>
      match findEntry es n with
      | some child =>
        match insertAt child rest v with
        | .ok c => .ok (.dir (setEntry es n c))
        | .error z => .error z
      | none => .error .ENOENT)
  | .file _, _ :: _, _ => .error .ENOTDIR
  | .other, _ :: _, _ => .error .ENOTDIR

/-- Backing-store rename: detach the source subtree, then attach it at the
destination (which must be free, its parent existing). -/
def fsRename (e : Entry) (oldP newP : FsPath) : Except ZErr Entry :=
  match lookupPath e oldP with
  | none => .error .ENOENT
  | some src =>
    match removePath e oldP with
    | none => .error .ENOENT
    | some pruned => insertAt pruned newP src

/-- Backing-store recursive mkdir, `fs.mkdir(path, { recursive: true })`:
creates every missing directory on the way, idempotent on an existing
directory. -/
def fsMkdir : Entry → FsPath → Except ZErr Entry
  | .dir es, [] => .ok (.dir es)
  | .file _, [] => .error .EEXIST
  | .other, [] => .error .EEXIST
  | .dir es, n :: rest =>
    match findEntry es n with
    | some child =>
      match fsMkdir child rest with
      | .ok c => .ok (.dir (setEntry es n c))
      | .error z => .error z
    | none =>
      match fsMkdir (.dir []) rest with
      | .ok c => .ok (.dir (es ++ [(n, c)]))
      | .error z => .error z
  | .file _, _ :: _ => .error .ENOTDIR
  | .other, _ :: _ => .error .ENOTDIR

/-- Backing-store directory listing, `fs.readdir`. -/
def fsReaddir (e : Entry) (p : FsPath) : Except ZErr (List String) :=
  match lookupPath e p with
  | some (.dir es) => .ok (es.map Prod.fst)
  | some _ => .error .ENOTDIR
  | none => .error .ENOENT

/-! ### The file operations facade (`class MemFS`) -/

/-- `MemFS.writeFile`: pre-checks existence against the `create` option
(outside the try block), then writes with flag `"w"` when `overwrite` and
`"wx"` otherwise, translating native failures. -/
def MemFS.writeFile (root : Entry) (p : FsPath) (content : List Nat)
    (create overwrite : Bool) : Except FsError Entry :=
  if !(fsExists root p) && !create then .error .FileNotFound
  else
    match fsWriteFile content (!overwrite) root p with
    | .ok r => .ok r
    | .error z => .error (toFileSystemError z)

/-- `MemFS.readFile`. -/
def MemFS.readFile (root : Entry) (p : FsPath) : Except FsError (List Nat) :=
  match fsReadFile root p with
  | .ok c => .ok c
  | .error z => .error (toFileSystemError z)

/-- `MemFS.delete`: `fs.rm` with `force: true` and the caller's
`recursive` flag. -/
def MemFS.delete (root : Entry) (p : FsPath) (recursive : Bool) : Except FsError Entry :=
  match fsRm true recursive root p with
  | .ok r => .ok r
  | .error z => .error (toFileSystemError z)

/-- `MemFS.rename`: when `overwrite` and the destination exists, first a
recursive force-remove of the destination, then the rename, as two
independent steps inside one try block. -/
def MemFS.rename (root : Entry) (oldP newP : FsPath) (overwrite : Bool) :
    Except FsError Entry :=
  match (if overwrite && fsExists root newP then fsRm true true root newP else .ok root) with
  | .error z => .error (toFileSystemError z)
  | .ok e =>
    match fsRename e oldP newP with
    | .ok r => .ok r
    | .error z => .error (toFileSystemError z)

/-! ### Recursive copy -/

/-- An error escaping `MemFS.copy`'s try block: either a native
backing-store failure, or one of the two `vscode.FileSystemError`s thrown
directly inside the block. -/
inductive CopyErr where
  | native (z : ZErr)
  | thrown (e : FsError)

/-- `MemFS.ensureParentDirectory`: recursive mkdir of `path.dirname` when
it does not exist yet. -/
def ensureParentDirectory (root : Entry) (p : FsPath) : Except ZErr Entry :=
  match p with
  | [] => .ok root
  | _ :: _ =>
    if fsExists root p.dropLast then .ok root else fsMkdir root p.dropLast

mutual
/-- A content-independent bound on the recursion depth of a copy whose
source subtree lives in the given tree (the source loops forever when the
destination is created inside the source; the model returns a native
`other` failure there instead). -/
def entryFuel : Entry → Nat
  | .file _ => 1
  | .other => 1
  | .dir es => 1 + entriesFuel es
termination_by structural e => e

/-- List part of `entryFuel`. -/
def entriesFuel : List (String × Entry) → Nat
  | [] => 0
  | (_, e) :: rest => 1 + entryFuel e + entriesFuel rest
termination_by structural es => es
end

mutual
/-- `MemFS.copyDirectory`: ensure the destination directory exists, list
the source, and copy each entry — recursing into directories, and writing
each file with a plain (truncating) write that never consults `overwrite`
nor re-checks existence. -/
def copyDirFuel (fuel : Nat) (root : Entry) (src dst : FsPath) (overwrite : Bool) :
    Except CopyErr Entry :=
  match fuel with
  | 0 => .error (.native .EOTHER)
  | f + 1 =>
    let step1 : Except CopyErr Entry :=
      if fsExists root dst then .ok root
      else
        match fsMkdir root dst with
        | .ok r => .ok r
        | .error z => .error (CopyErr.native z)
    match step1 with
    | .error err => .error err
    | .ok root1 =>
      match fsReaddir root1 src with
      | .error z => .error (.native z)
      | .ok names => copyEntriesFuel f root1 src dst overwrite names
termination_by (fuel, 0)

/-- The `for (const entry of entries)` loop of `MemFS.copyDirectory`. -/
def copyEntriesFuel (fuel : Nat) (root : Entry) (src dst : FsPath) (overwrite : Bool)
    (names : List String) : Except CopyErr Entry :=
  match names with
  | [] => .ok root
  | name :: rest =>
    match lookupPath root (src ++ [name]) with
    | none => .error (.native .ENOENT)
    | some (.dir _) =>
      match copyDirFuel fuel root (src ++ [name]) (dst ++ [name]) overwrite with
      | .error err => .error err
      | .ok root2 => copyEntriesFuel fuel root2 src dst overwrite rest
    | some _ =>
      match fsReadFile root (src ++ [name]) with
      | .error z => .error (.native z)
      | .ok data =>
        match fsWriteFile data false root (dst ++ [name]) with
        | .error z => .error (.native z)
        | .ok root2 => copyEntriesFuel fuel root2 src dst overwrite rest
termination_by (fuel, names.length + 1)
end

/-- The try block of `MemFS.copy`: source must exist, destination must be
free unless `overwrite` (the only place `overwrite` is consulted), then
parent auto-creation and either a recursive directory copy or a single
read + truncating write. -/
def copyBody (root : Entry) (src dst : FsPath) (overwrite : Bool) : Except CopyErr Entry :=
  if !(fsExists root src) then .error (.thrown .FileNotFound)
  else if fsExists root dst && !overwrite then .error (.thrown .FileExists)
  else
    match ensureParentDirectory root dst with
    | .error z => .error (.native z)
    | .ok root1 =>
      match lookupPath root1 src with
      | none => .error (.native .ENOENT)
      | some (.dir _) => copyDirFuel (entryFuel root1) root1 src dst overwrite
      | some _ =>
        match fsReadFile root1 src with
        | .error z => .error (.native z)
        | .ok data =>
          match fsWriteFile data false root1 dst with
          | .error z => .error (.native z)
          | .ok r => .ok r

/-- `MemFS.copy`.  The two `vscode.FileSystemError` throws happen inside
the try block; the catch re-translates them with `toFileSystemError`,
whose switch does not recognise their `code` (it is `"FileNotFound"` /
`"FileExists"`, not an errno), so they surface as `Unavailable`. -/
def MemFS.copy (root : Entry) (src dst : FsPath) (overwrite : Bool) :
    Except FsError Entry :=
  match copyBody root src dst overwrite with
  | .ok r => .ok r
  | .error (.native z) => .error (toFileSystemError z)
  | .error (.thrown _) => .error .Unavailable

/-! ### Text utilities shared by the search engines -/

/-- JS `String.prototype.toLowerCase`, on the ASCII range the store
exercises. -/
def strLower (s : String) : String :=
  ⟨s.data.map Char.toLower⟩

/-- Byte rendering of a string, for concrete stores. -/
def strBytes (s : String) : List Nat :=
  s.data.map Char.toNat

/-- `TextDecoder.decode`, modelled byte-per-char (the decoder is lossy on
invalid input but never throws, so the catch guarding it in the source
never fires for decoding). -/
def decodeText (bs : List Nat) : String :=
  ⟨bs.map Char.ofNat⟩

/-- Splitting on `/\r?\n/`: accumulator-based scan. -/
def splitLinesAux : List Char → List Char → List String
  | [], acc => [⟨acc.reverse⟩]
  | '\r' :: '\n' :: rest, acc => (⟨acc.reverse⟩ : String) :: splitLinesAux rest []
  | '\n' :: rest, acc => (⟨acc.reverse⟩ : String) :: splitLinesAux rest []
  | c :: rest, acc => splitLinesAux rest (c :: acc)

/-- `text.split(/\r?\n/)`. -/
def splitLines (s : String) : List String :=
  splitLinesAux s.data []

/-- JS `hay.indexOf(needle, start)` on char lists; `none` plays -1.  The
start position is clamped to the haystack length, and the first position
at or after it where the needle occurs is returned. -/
def jsIndexOfFrom (hay needle : List Char) (start : Nat) : Option Nat :=
  (List.range (hay.length + 1)).find? fun i =>
    decide (min start hay.length ≤ i) && needle.isPrefixOf (hay.drop i)

/-- `entry.toLowerCase().includes(patternLower)` (the pattern is already
lower-cased once by the caller). -/
def fileNameMatches (name : String) (pl : String) : Bool :=
  (jsIndexOfFrom (strLower name).data pl.data 0).isSome

/-- The truthiness test `options.maxResults && n >= options.maxResults`:
an absent or zero cap never limits. -/
def maxHit (mr : Option Nat) (n : Nat) : Bool :=
  match mr with
  | none => false
  | some m => !(m == 0) && decide (m ≤ n)

/-! ### The filename search engine (`MemFSFileSearchProvider`) -/

mutual
/-- `searchInFolder` of `provideFileSearchResults`: list the folder and
process its entries; a non-directory folder (inaccessible listing) is
swallowed by the catch.  The cancellation token is modelled as the
constant `cancelled`, polled exactly where the source polls it. -/
def fileSearchFolder (pl : String) (mr : Option Nat) (cancelled : Bool) :
    Entry → FsPath → List FsPath → List FsPath
  | e, folderPath, results =>
    if cancelled then results
    else
      match e with
      | .dir es => fileSearchEntries pl mr cancelled es folderPath results
      | _ => results
termination_by structural e => e

/-- The `for (const entry of entries)` loop of `searchInFolder`: stat each
entry; descend into directories (after the `maxResults` check), append a
matching file name (then check `maxResults`), skip any other kind. -/
def fileSearchEntries (pl : String) (mr : Option Nat) (cancelled : Bool) :
    List (String × Entry) → FsPath → List FsPath → List FsPath
  | [], _, results => results
  | (name, child) :: rest, folderPath, results =>
    if cancelled then results
    else
      match child with
      | .dir _ =>
        if maxHit mr results.length then results
        else
          fileSearchEntries pl mr cancelled rest folderPath
            (fileSearchFolder pl mr cancelled child (folderPath ++ [name]) results)
      | .file _ =>
        if fileNameMatches name pl then
          if maxHit mr (results ++ [folderPath ++ [name]]).length then
            results ++ [folderPath ++ [name]]
          else fileSearchEntries pl mr cancelled rest folderPath (results ++ [folderPath ++ [name]])
        else fileSearchEntries pl mr cancelled rest folderPath results
      | .other => fileSearchEntries pl mr cancelled rest folderPath results
termination_by structural es => es
end

/-- One `searchInFolder(folderPath)` call issued from the top level: the
initial `readdir` resolves the path in the store (a failure is swallowed
by the catch). -/
def fileSearchAt (root : Entry) (pl : String) (mr : Option Nat) (cancelled : Bool)
    (folderPath : FsPath) (results : List FsPath) : List FsPath :=
  match lookupPath root folderPath with
  | some e => fileSearchFolder pl mr cancelled e folderPath results
  | none => results

/-- `provideFileSearchResults`: lower-case the pattern once, walk each
include folder (root when the include list is empty), and return the
accumulated uris (modelled by their paths). -/
def provideFileSearchResults (root : Entry) (pattern : String) (includes : List FsPath)
    (mr : Option Nat) (cancelled : Bool) : List FsPath :=
  let pl := strLower pattern
  let afterIncludes :=
    includes.foldl
      (fun results folderPath =>
        if cancelled then results else fileSearchAt root pl mr cancelled folderPath results)
      []
  if includes.isEmpty then fileSearchAt root pl mr cancelled [] afterIncludes
  else afterIncludes

/-! ### The content search engine (`MemFSTextSearchProvider`) -/

/-- A `vscode.TextSearchQuery`. -/
structure TextQuery where
  pattern : String
  isRegExp : Bool
  isCaseSensitive : Bool

/-- One progress event (`progress.report({...})`): the file uri (by path),
the zero-based line, the match column range, and the preview (full line
text plus the match range relative to it). -/
structure SearchReport where
  path : FsPath
  line : Nat
  colStart : Nat
  colEnd : Nat
  previewText : String
  previewStart : Nat
  previewEnd : Nat
deriving DecidableEq

/-- The per-invocation shared state: the limit flag, the running result
count, and the stream of progress events already emitted, in order. -/
structure TCtx where
  limitHit : Bool
  resultCount : Nat
  reports : List SearchReport
deriving DecidableEq

/-- The result-count invariant of one content-search invocation with cap
`m`: the running count equals the number of emitted events, it never
exceeds `m`, and the shared flag is set exactly when the count has
reached `m`. -/
def LimitInv (m : Nat) (ctx : TCtx) : Prop :=
  ctx.resultCount = ctx.reports.length ∧ ctx.resultCount ≤ m ∧
    ctx.limitHit = decide (m ≤ ctx.resultCount)

/-- The compiled `RegExp`'s `exec`, as a function of the line and of
`lastIndex`: a match is its start position and length.  `exec` then moves
`lastIndex` to the match end (start + length — not past a zero-length
match). -/
abbrev RegexEngine := String → Nat → Option (Nat × Nat)

/-- The regex branch of the per-line loop.  `fuel` bounds the iteration
count; the source loop diverges when a zero-length match repeats with no
result cap, which the model truncates (second component `false`); every
run the source finishes is reproduced exactly (second component `true`). -/
def regexLineLoop (engine : RegexEngine) (mr : Option Nat) (cancelled : Bool)
    (filePath : FsPath) (lineNumber : Nat) (line : String) :
    Nat → Nat → TCtx → TCtx × Bool
  | 0, _, ctx => (ctx, false)
  | fuel + 1, lastIndex, ctx =>
    match engine line lastIndex with
    | none => (ctx, true)
    | some (i, len) =>
      if ctx.limitHit || cancelled then (ctx, true)
      else
        let ctx2 : TCtx :=
          { limitHit := ctx.limitHit
            resultCount := ctx.resultCount + 1
            reports := ctx.reports ++
              [{ path := filePath, line := lineNumber, colStart := i, colEnd := i + len,
                 previewText := line, previewStart := i, previewEnd := i + len }] }
        if maxHit mr ctx2.resultCount then ({ ctx2 with limitHit := true }, true)
        else regexLineLoop engine mr cancelled filePath lineNumber line fuel (i + len) ctx2

/-- The plain-text branch of the per-line loop: repeated
`searchLine.indexOf(searchString, startIndex)`, the cursor advancing to
one past the start of the previous match, the range built from the
(already case-folded) search string's length. -/
def literalLineLoop (searchString : String) (mr : Option Nat) (cancelled : Bool)
    (filePath : FsPath) (lineNumber : Nat) (line searchLine : String) :
    Nat → Nat → TCtx → TCtx × Bool
  | 0, _, ctx => (ctx, false)
  | fuel + 1, startIndex, ctx =>
    match jsIndexOfFrom searchLine.data searchString.data startIndex with
    | none => (ctx, true)
    | some i =>
      if ctx.limitHit || cancelled then (ctx, true)
      else
        let ctx2 : TCtx :=
          { limitHit := ctx.limitHit
            resultCount := ctx.resultCount + 1
            reports := ctx.reports ++
              [{ path := filePath, line := lineNumber, colStart := i,
                 colEnd := i + searchString.length,
                 previewText := line, previewStart := i,
                 previewEnd := i + searchString.length }] }
        if maxHit mr ctx2.resultCount then ({ ctx2 with limitHit := true }, true)
        else
          literalLineLoop searchString mr cancelled filePath lineNumber line searchLine
            fuel (i + 1) ctx2

/-- Iteration budget for one line: enough for every run the source
finishes (the cursor moves by at least one per iteration on a non-empty
needle, and every iteration reports, so a result cap of `m` ends the loop
within `m + 1` iterations). -/
def lineFuel (line : String) (mr : Option Nat) : Nat :=
  line.length + 2 + (match mr with | none => 0 | some m => m)

/-- The `for (let lineNumber = ...)` loop of `searchInFile`. -/
def textSearchLines (q : TextQuery) (engine : RegexEngine) (mr : Option Nat)
    (cancelled : Bool) (filePath : FsPath) :
    List String → Nat → TCtx → TCtx
  | [], _, ctx => ctx
  | line :: rest, lineNumber, ctx =>
    if cancelled || ctx.limitHit then ctx
    else
      let searchLine := if q.isCaseSensitive then line else strLower line
      let ctx2 :=
        if q.isRegExp then
          (regexLineLoop engine mr cancelled filePath lineNumber line
            (lineFuel line mr) 0 ctx).1
        else
          (literalLineLoop (if q.isCaseSensitive then q.pattern else strLower q.pattern)
            mr cancelled filePath lineNumber line searchLine (lineFuel line mr) 0 ctx).1
      textSearchLines q engine mr cancelled filePath rest (lineNumber + 1) ctx2

/-- `searchInFile`: read (already done by the caller, which passes the
content), decode, split into lines and scan them. -/
def textSearchInFile (q : TextQuery) (engine : RegexEngine) (mr : Option Nat)
    (cancelled : Bool) (content : List Nat) (filePath : FsPath) (ctx : TCtx) : TCtx :=
  if cancelled || ctx.limitHit then ctx
  else textSearchLines q engine mr cancelled filePath (splitLines (decodeText content)) 0 ctx

mutual
/-- `searchInFolder` of `provideTextSearchResults`. -/
def textSearchFolder (q : TextQuery) (engine : RegexEngine) (mr : Option Nat)
    (cancelled : Bool) : Entry → FsPath → TCtx → TCtx
  | e, folderPath, ctx =>
    if cancelled || ctx.limitHit then ctx
    else
      match e with
      | .dir es => textSearchEntries q engine mr cancelled es folderPath ctx
      | _ => ctx
termination_by structural e => e

/-- Its entries loop: descend into directories, scan regular files, skip
any other kind. -/
def textSearchEntries (q : TextQuery) (engine : RegexEngine) (mr : Option Nat)
    (cancelled : Bool) : List (String × Entry) → FsPath → TCtx → TCtx
  | [], _, ctx => ctx
  | (name, child) :: rest, folderPath, ctx =>
    if cancelled || ctx.limitHit then ctx
    else
      match child with
      | .dir _ =>
        textSearchEntries q engine mr cancelled rest folderPath
          (textSearchFolder q engine mr cancelled child (folderPath ++ [name]) ctx)
      | .file c =>
        textSearchEntries q engine mr cancelled rest folderPath
          (textSearchInFile q engine mr cancelled c (folderPath ++ [name]) ctx)
      | .other => textSearchEntries q engine mr cancelled rest folderPath ctx
termination_by structural es => es
end

/-- One top-level `searchInFolder(folderPath)` call of the text engine. -/
def textSearchAt (root : Entry) (q : TextQuery) (engine : RegexEngine) (mr : Option Nat)
    (cancelled : Bool) (folderPath : FsPath) (ctx : TCtx) : TCtx :=
  match lookupPath root folderPath with
  | some e => textSearchFolder q engine mr cancelled e folderPath ctx
  | none => ctx

/-- What `provideTextSearchResults` produces: the returned
`{ limitHit }` plus the stream of progress events it emitted. -/
structure TextSearchOutcome where
  limitHit : Bool
  reports : List SearchReport
deriving DecidableEq

/-- `provideTextSearchResults`: fresh per-invocation state, a walk of each
include folder (root when none), returning the limit flag and the emitted
stream. -/
def provideTextSearchResults (root : Entry) (q : TextQuery) (engine : RegexEngine)
    (includes : List FsPath) (mr : Option Nat) (cancelled : Bool) : TextSearchOutcome :=
  let ctx0 : TCtx := ⟨false, 0, []⟩
  let ctx1 := includes.foldl
    (fun ctx folderPath =>
      if cancelled || ctx.limitHit then ctx
      else textSearchAt root q engine mr cancelled folderPath ctx) ctx0
  let ctx2 := if includes.isEmpty then textSearchAt root q engine mr cancelled [] ctx1 else ctx1
  { limitHit := ctx2.limitHit, reports := ctx2.reports }

/-! ### Store well-formedness (distinct sibling names) -/

mutual
/-- A store tree is well formed when every directory lists pairwise
distinct names — what a real filesystem guarantees; the association-list
model otherwise admits shadowed duplicates no filesystem exhibits. -/
def wfEntry : Entry → Bool
  | .file _ => true
  | .other => true
  | .dir es => wfEntries es
termination_by structural e => e

/-- List part of `wfEntry`. -/
def wfEntries : List (String × Entry) → Bool
  | [] => true
  | (n, e) :: rest => !(findEntry rest n).isSome && wfEntry e && wfEntries rest
termination_by structural es => es
end

/-- Stat kind test used to state claims about search results. -/
def Entry.isFileE : Entry → Bool
  | .file _ => true
  | _ => false

/-- Two paths diverge: neither is a prefix of the other, so neither names
an entry inside the other's subtree. -/
def DisjP (a b : FsPath) : Prop :=
  ¬ a <+: b ∧ ¬ b <+: a


/-! ### Association-list lemmas -/

theorem findEntry_setEntry_self {es : List (String × Entry)} {n : String} {c v : Entry}
    (h : findEntry es n = some c) : findEntry (setEntry es n v) n = some v := by
  induction es with
  | nil => simp [findEntry] at h
  | cons p rest ih =>
    rcases p with ⟨m, e⟩
    by_cases hm : m = n
    · subst hm
      simp [findEntry, setEntry]
    · simp only [findEntry, setEntry, beq_iff_eq, hm, if_false] at h ⊢
      exact ih h

theorem findEntry_setEntry_ne {es : List (String × Entry)} {n m : String} {v : Entry}
    (h : ¬ m = n) : findEntry (setEntry es n v) m = findEntry es m := by
  induction es with
  | nil => simp [findEntry, setEntry]
  | cons p rest ih =>
    rcases p with ⟨k, e⟩
    by_cases hk : k = n
    · subst hk
      have hkm : ¬ k = m := fun hc => h hc.symm
      simp [findEntry, setEntry, hkm, ih]
    · by_cases hkm : k = m
      · subst hkm
        simp [findEntry, setEntry, hk]
      · simp [findEntry, setEntry, hk, hkm, ih]

theorem findEntry_append_of_none {es : List (String × Entry)} {n : String} {v : Entry}
    (h : findEntry es n = none) : findEntry (es ++ [(n, v)]) n = some v := by
  induction es with
  | nil => simp [findEntry]
  | cons p rest ih =>
    rcases p with ⟨k, e⟩
    by_cases hk : k = n
    · simp [findEntry, hk] at h
    · simp only [findEntry, List.cons_append, beq_iff_eq, hk, if_false] at h ⊢
      exact ih h

theorem findEntry_delEntry_self {es : List (String × Entry)} {n : String} :
    findEntry (delEntry es n) n = none := by
  induction es with
  | nil => simp [findEntry, delEntry]
  | cons p rest ih =>
    rcases p with ⟨k, e⟩
    by_cases hk : k = n
    · simp [delEntry, hk, ih]
    · simp [delEntry, findEntry, hk, ih]

theorem findEntry_delEntry_ne {es : List (String × Entry)} {n m : String}
    (h : ¬ m = n) : findEntry (delEntry es n) m = findEntry es m := by
  induction es with
  | nil => simp [findEntry, delEntry]
  | cons p rest ih =>
    rcases p with ⟨k, e⟩
    by_cases hk : k = n
    · subst hk
      have hkm : ¬ k = m := fun hc => h hc.symm
      simp [delEntry, findEntry, hkm, ih]
    · by_cases hkm : k = m
      · subst hkm
        simp [delEntry, findEntry, hk]
      · simp [delEntry, findEntry, hk, hkm, ih]

/-! ### Write-file lemmas -/

theorem lookupPath_fsWriteFile {content : List Nat} {excl : Bool} :
    ∀ (p : FsPath) (e r : Entry), fsWriteFile content excl e p = .ok r →
      lookupPath r p = some (.file content) := by
  intro p
  induction p with
  | nil =>
    intro e r h
    by_cases hx : excl = true
    · cases e <;> simp [fsWriteFile, hx] at h
    · cases e with
      | dir es => simp [fsWriteFile, hx] at h
      | file c =>
        simp [fsWriteFile, hx] at h
        subst h
        simp [lookupPath]
      | other =>
        simp [fsWriteFile, hx] at h
        subst h
        simp [lookupPath]
  | cons n rest ih =>
    intro e r h
    cases e with
    | file c => simp [fsWriteFile] at h
    | other => simp [fsWriteFile] at h
    | dir es =>
      simp only [fsWriteFile] at h
      split at h
      · rename_i child hfe
        split at h
        · rename_i child2 hw
          simp only [Except.ok.injEq] at h
          subst h
          simp only [lookupPath, findEntry_setEntry_self hfe]
          exact ih child child2 hw
        · simp at h
      · rename_i hfe
        cases rest with
        | nil =>
          simp at h
          subst h
          simp [lookupPath, findEntry_append_of_none hfe]
        | cons a b => simp at h

/-! ### Claim C1 -/

/-- Claim C1: for every path and byte sequence, after a successful
`write(id, bytes, create := true, overwrite := true)` on the store, a
subsequent `read(id)` returns exactly `bytes`. -/
theorem write_then_read_roundtrip (root r : Entry) (p : FsPath) (bytes : List Nat)
    (h : MemFS.writeFile root p bytes true true = .ok r) :
    MemFS.readFile r p = .ok bytes := by
  unfold MemFS.writeFile at h
  simp only [Bool.not_true, Bool.and_false, Bool.false_eq_true, if_false] at h
  cases hw : fsWriteFile bytes false root p with
  | ok r2 =>
    rw [hw] at h
    simp only [Except.ok.injEq] at h
    subst h
    have hl := lookupPath_fsWriteFile p root r2 hw
    unfold MemFS.readFile fsReadFile
    rw [hl]
  | error z =>
    rw [hw] at h
    simp at h

/-- Concrete run of Claim C1's hypothesis: writing `[7, 8]` at `/f` into
the empty store succeeds, and the theorem then evaluates the read. -/
theorem write_then_read_roundtrip_witness :
    MemFS.readFile (Entry.dir [("f", Entry.file [7, 8])]) ["f"] = .ok [7, 8] :=
  write_then_read_roundtrip (Entry.dir []) (Entry.dir [("f", Entry.file [7, 8])])
    ["f"] [7, 8] rfl

theorem fsWriteFile_excl_of_exists {content : List Nat} :
    ∀ (p : FsPath) (e v : Entry), lookupPath e p = some v →
      fsWriteFile content true e p = .error .EEXIST := by
  intro p
  induction p with
  | nil =>
    intro e v h
    cases e <;> simp [fsWriteFile]
  | cons n rest ih =>
    intro e v h
    cases e with
    | file c => simp [lookupPath] at h
    | other => simp [lookupPath] at h
    | dir es =>
      cases hfe : findEntry es n with
      | some child =>
        simp only [lookupPath, hfe] at h
        simp [fsWriteFile, hfe, ih child v h]
      | none => simp [lookupPath, hfe] at h

theorem fsWriteFile_isdir_of_dir {content : List Nat} :
    ∀ (p : FsPath) (e : Entry) (es : List (String × Entry)),
      lookupPath e p = some (.dir es) →
      fsWriteFile content false e p = .error .EISDIR := by
  intro p
  induction p with
  | nil =>
    intro e es h
    simp only [lookupPath, Option.some.injEq] at h
    subst h
    simp [fsWriteFile]
  | cons n rest ih =>
    intro e es h
    cases e with
    | file c => simp [lookupPath] at h
    | other => simp [lookupPath] at h
    | dir es0 =>
      cases hfe : findEntry es0 n with
      | some child =>
        simp only [lookupPath, hfe] at h
        simp [fsWriteFile, hfe, ih child es h]
      | none => simp [lookupPath, hfe] at h

theorem fsWriteFile_ok_of_nondir {content : List Nat} :
    ∀ (p : FsPath) (e v : Entry), lookupPath e p = some v →
      (∀ es, v ≠ .dir es) →
      ∃ r, fsWriteFile content false e p = .ok r := by
  intro p
  induction p with
  | nil =>
    intro e v h hv
    simp only [lookupPath, Option.some.injEq] at h
    subst h
    cases e with
    | dir es => exact absurd rfl (hv es)
    | file c => exact ⟨.file content, by simp [fsWriteFile]⟩
    | other => exact ⟨.file content, by simp [fsWriteFile]⟩
  | cons n rest ih =>
    intro e v h hv
    cases e with
    | file c => simp [lookupPath] at h
    | other => simp [lookupPath] at h
    | dir es0 =>
      cases hfe : findEntry es0 n with
      | some child =>
        simp only [lookupPath, hfe] at h
        obtain ⟨r, hr⟩ := ih child v h hv
        exact ⟨.dir (setEntry es0 n r), by simp [fsWriteFile, hfe, hr]⟩
      | none => simp [lookupPath, hfe] at h

theorem fsWriteFile_ok_of_absent {content : List Nat} {excl : Bool} :
    ∀ (q : FsPath) (e : Entry) (es : List (String × Entry)) (n : String),
      lookupPath e q = some (.dir es) → lookupPath e (q ++ [n]) = none →
      ∃ r, fsWriteFile content excl e (q ++ [n]) = .ok r := by
  intro q
  induction q with
  | nil =>
    intro e es n h1 h2
    simp only [lookupPath, Option.some.injEq] at h1
    subst h1
    cases hfe : findEntry es n with
    | some child => simp [lookupPath, hfe] at h2
    | none =>
      exact ⟨.dir (es ++ [(n, .file content)]), by simp [fsWriteFile, hfe]⟩
  | cons m q2 ih =>
    intro e es n h1 h2
    cases e with
    | file c => simp [lookupPath] at h1
    | other => simp [lookupPath] at h1
    | dir es0 =>
      cases hfe : findEntry es0 m with
      | some child =>
        simp only [lookupPath, hfe] at h1
        simp only [List.cons_append, lookupPath, hfe] at h2
        obtain ⟨r, hr⟩ := ih child es n h1 h2
        exact ⟨.dir (setEntry es0 m r), by simp [fsWriteFile, hfe, hr]⟩
      | none => simp [lookupPath, hfe] at h1

theorem fsWriteFile_eexist_inv {content : List Nat} {excl : Bool} :
    ∀ (p : FsPath) (e : Entry), fsWriteFile content excl e p = .error .EEXIST →
      excl = true ∧ (lookupPath e p).isSome = true := by
  intro p
  induction p with
  | nil =>
    intro e h
    by_cases hx : excl = true
    · exact ⟨hx, by simp [lookupPath]⟩
    · cases e <;> simp [fsWriteFile, hx] at h
  | cons n rest ih =>
    intro e h
    cases e with
    | file c => simp [fsWriteFile] at h
    | other => simp [fsWriteFile] at h
    | dir es =>
      cases hfe : findEntry es n with
      | some child =>
        cases hw : fsWriteFile content excl child rest with
        | ok child2 => simp [fsWriteFile, hfe, hw] at h
        | error z =>
          have hz : z = .EEXIST := by
            simp [fsWriteFile, hfe, hw] at h
            exact h
          subst hz
          obtain ⟨h1, h2⟩ := ih child hw
          exact ⟨h1, by simp [lookupPath, hfe, h2]⟩
      | none =>
        cases rest with
        | nil => simp [fsWriteFile, hfe] at h
        | cons a b => simp [fsWriteFile, hfe] at h

theorem fsWriteFile_eisdir_inv {content : List Nat} {excl : Bool} :
    ∀ (p : FsPath) (e : Entry), fsWriteFile content excl e p = .error .EISDIR →
      excl = false ∧ ∃ es, lookupPath e p = some (.dir es) := by
  intro p
  induction p with
  | nil =>
    intro e h
    by_cases hx : excl = true
    · cases e <;> simp [fsWriteFile, hx] at h
    · cases e with
      | dir es =>
        exact ⟨by simpa using hx, es, by simp [lookupPath]⟩
      | file c => simp [fsWriteFile, hx] at h
      | other => simp [fsWriteFile, hx] at h
  | cons n rest ih =>
    intro e h
    cases e with
    | file c => simp [fsWriteFile] at h
    | other => simp [fsWriteFile] at h
    | dir es =>
      cases hfe : findEntry es n with
      | some child =>
        cases hw : fsWriteFile content excl child rest with
        | ok child2 => simp [fsWriteFile, hfe, hw] at h
        | error z =>
          have hz : z = .EISDIR := by
            simp [fsWriteFile, hfe, hw] at h
            exact h
          subst hz
          obtain ⟨h1, es2, h2⟩ := ih child hw
          exact ⟨h1, es2, by simp [lookupPath, hfe, h2]⟩
      | none =>
        cases rest with
        | nil => simp [fsWriteFile, hfe] at h
        | cons a b => simp [fsWriteFile, hfe] at h

/-! ### Claim C4 -/

/-- Claim C4, counterexample: with `create = true` (so the claimed
"NotFound iff target absent and create=false" forbids a NotFound failure)
and `overwrite = true`, writing at `/d/f` in an empty store still raises
`FileNotFound`, because the missing parent directory makes the backing
write fail with a not-found code after the pre-check passed. -/
theorem writeFile_notFound_despite_create :
    MemFS.writeFile (Entry.dir []) ["d", "f"] [1] true true =
      .error .FileNotFound := by
  rfl

theorem memfs_writeFile_eq (root : Entry) (p : FsPath) (content : List Nat)
    (create overwrite : Bool) (h : fsExists root p = true ∨ create = true) :
    MemFS.writeFile root p content create overwrite =
      match fsWriteFile content (!overwrite) root p with
      | .ok r => .ok r
      | .error z => .error (toFileSystemError z) := by
  unfold MemFS.writeFile
  rcases h with h | h <;> simp [h]

theorem memfs_writeFile_guard (root : Entry) (p : FsPath) (content : List Nat)
    (overwrite : Bool) (h1 : fsExists root p = false) :
    MemFS.writeFile root p content false overwrite = .error .FileNotFound := by
  unfold MemFS.writeFile
  simp [h1]

/-- Claim C4, amended: `write` raises NotFound when the target does not
exist and `create = false` (before touching the store), and also when the
parent path of the target is missing or not a directory (translated from
the backing not-found code) even with `create = true`; it raises
AlreadyExists exactly when the target exists and `overwrite = false`; it
raises IsADirectory exactly when the target is an existing directory and
`overwrite = true`; and when the parent is an existing directory, the
target is not a directory, and the create/overwrite options allow it, it
succeeds and fully replaces any prior content. -/
theorem writeFile_spec_amended (root : Entry) (p : FsPath) (content : List Nat)
    (create overwrite : Bool) :
    (fsExists root p = false → create = false →
      MemFS.writeFile root p content create overwrite = .error .FileNotFound)
    ∧ (MemFS.writeFile root p content create overwrite = .error .FileExists ↔
        fsExists root p = true ∧ overwrite = false)
    ∧ (MemFS.writeFile root p content create overwrite = .error .FileIsADirectory ↔
        (∃ es, lookupPath root p = some (.dir es)) ∧ overwrite = true)
    ∧ (∀ q n es, p = q ++ [n] → lookupPath root q = some (.dir es) →
        (∀ es2, lookupPath root p ≠ some (.dir es2)) →
        (fsExists root p = true → overwrite = true) →
        (fsExists root p = false → create = true) →
        ∃ r, MemFS.writeFile root p content create overwrite = .ok r ∧
          lookupPath r p = some (.file content)) := by
  refine ⟨?_, ⟨?_, ?_⟩, ⟨?_, ?_⟩, ?_⟩
  · intro h1 h2
    subst h2
    exact memfs_writeFile_guard root p content overwrite h1
  · intro h
    by_cases hex : fsExists root p = true
    · rw [memfs_writeFile_eq root p content create overwrite (Or.inl hex)] at h
      cases hw : fsWriteFile content (!overwrite) root p with
      | ok r =>
        rw [hw] at h
        simp at h
      | error z =>
        rw [hw] at h
        simp only [Except.error.injEq] at h
        cases z <;> simp [toFileSystemError] at h
        obtain ⟨hx, _⟩ := fsWriteFile_eexist_inv p root hw
        exact ⟨hex, by simpa using hx⟩
    · by_cases hcr : create = true
      · rw [memfs_writeFile_eq root p content create overwrite (Or.inr hcr)] at h
        cases hw : fsWriteFile content (!overwrite) root p with
        | ok r =>
          rw [hw] at h
          simp at h
        | error z =>
          rw [hw] at h
          simp only [Except.error.injEq] at h
          cases z <;> simp [toFileSystemError] at h
          obtain ⟨_, hsome⟩ := fsWriteFile_eexist_inv p root hw
          exact absurd (show fsExists root p = true from hsome) hex
      · have hex2 : fsExists root p = false := by simpa using hex
        have hcr2 : create = false := by simpa using hcr
        subst hcr2
        rw [memfs_writeFile_guard root p content overwrite hex2] at h
        simp at h
  · rintro ⟨hex, hov⟩
    subst hov
    rw [memfs_writeFile_eq root p content create false (Or.inl hex)]
    have hsome : (lookupPath root p).isSome = true := by simpa [fsExists] using hex
    obtain ⟨v, hv⟩ := Option.isSome_iff_exists.mp hsome
    rw [show (!false) = true from rfl, fsWriteFile_excl_of_exists p root v hv]
    simp [toFileSystemError]
  · intro h
    by_cases hex : fsExists root p = true
    · rw [memfs_writeFile_eq root p content create overwrite (Or.inl hex)] at h
      cases hw : fsWriteFile content (!overwrite) root p with
      | ok r =>
        rw [hw] at h
        simp at h
      | error z =>
        rw [hw] at h
        simp only [Except.error.injEq] at h
        cases z <;> simp [toFileSystemError] at h
        obtain ⟨hx, hes⟩ := fsWriteFile_eisdir_inv p root hw
        exact ⟨hes, by simpa using hx⟩
    · by_cases hcr : create = true
      · rw [memfs_writeFile_eq root p content create overwrite (Or.inr hcr)] at h
        cases hw : fsWriteFile content (!overwrite) root p with
        | ok r =>
          rw [hw] at h
          simp at h
        | error z =>
          rw [hw] at h
          simp only [Except.error.injEq] at h
          cases z <;> simp [toFileSystemError] at h
          obtain ⟨_, es2, hes⟩ := fsWriteFile_eisdir_inv p root hw
          have : (lookupPath root p).isSome = true := by simp [hes]
          exact absurd (show fsExists root p = true from this) hex
      · have hex2 : fsExists root p = false := by simpa using hex
        have hcr2 : create = false := by simpa using hcr
        subst hcr2
        rw [memfs_writeFile_guard root p content overwrite hex2] at h
        simp at h
  · rintro ⟨⟨es, hes⟩, hov⟩
    subst hov
    have hex : fsExists root p = true := by simp [fsExists, hes]
    rw [memfs_writeFile_eq root p content create true (Or.inl hex)]
    rw [show (!true) = false from rfl, fsWriteFile_isdir_of_dir p root es hes]
    simp [toFileSystemError]
  · intro q n es hp hq ht hov hcr
    subst hp
    by_cases hex : fsExists root (q ++ [n]) = true
    · have hovt : overwrite = true := hov hex
      subst hovt
      have hsome : (lookupPath root (q ++ [n])).isSome = true := by
        simpa [fsExists] using hex
      obtain ⟨v, hv⟩ := Option.isSome_iff_exists.mp hsome
      have hnd : ∀ es2, v ≠ .dir es2 := fun es2 hcon => ht es2 (by rw [hv, hcon])
      obtain ⟨r, hr⟩ := fsWriteFile_ok_of_nondir (q ++ [n]) root v hv hnd
      refine ⟨r, ?_, lookupPath_fsWriteFile (q ++ [n]) root r hr⟩
      rw [memfs_writeFile_eq root (q ++ [n]) content create true (Or.inl hex)]
      rw [show (!true) = false from rfl, hr]
    · have hcrt : create = true := hcr (by simpa using hex)
      have hnone : lookupPath root (q ++ [n]) = none := by
        cases hl : lookupPath root (q ++ [n]) with
        | none => rfl
        | some v => exact absurd (by simp [fsExists, hl]) hex
      obtain ⟨r, hr⟩ :=
        @fsWriteFile_ok_of_absent content (!overwrite) q root es n hq hnone
      refine ⟨r, ?_, lookupPath_fsWriteFile (q ++ [n]) root r hr⟩
      rw [memfs_writeFile_eq root (q ++ [n]) content create overwrite (Or.inr hcrt), hr]

/-- Concrete run of the amended Claim C4's success clause: overwriting the
existing file `/f` (old content `[9]`) with `create = overwrite = true`
succeeds and replaces the content. -/
theorem writeFile_spec_amended_witness :
    ∃ r, MemFS.writeFile (Entry.dir [("f", Entry.file [9])]) ["f"] [1, 2] true true =
        .ok r ∧ lookupPath r ["f"] = some (.file [1, 2]) :=
  (writeFile_spec_amended (Entry.dir [("f", Entry.file [9])]) ["f"] [1, 2]
      true true).2.2.2 [] "f" [("f", Entry.file [9])] rfl rfl
    (by intro es2 hcon; simp [lookupPath, findEntry] at hcon)
    (fun _ => rfl) (fun _ => rfl)

/-! ### Claim C9 -/

/-- Claim C9: `delete` on a path that does not exist completes
successfully (the store unchanged) for every `recursive` flag, because the
removal is issued with `force: true`, which suppresses the not-found
failure. -/
theorem delete_nonexistent_ok (root : Entry) (p : FsPath) (recursive : Bool)
    (h : lookupPath root p = none) :
    MemFS.delete root p recursive = .ok root := by
  cases p with
  | nil => simp [lookupPath] at h
  | cons n rest =>
    unfold MemFS.delete fsRm
    rw [h]
    simp

/-- Concrete run of Claim C9: deleting the absent `/nope` from a one-file
store leaves it intact, with both `recursive` values exercised on the
claimed hypothesis. -/
theorem delete_nonexistent_ok_witness :
    MemFS.delete (Entry.dir [("a", Entry.file [1])]) ["nope"] false =
      .ok (Entry.dir [("a", Entry.file [1])]) :=
  delete_nonexistent_ok (Entry.dir [("a", Entry.file [1])]) ["nope"] false rfl

/-! ### Remove/insert lemmas -/

theorem findEntry_append_ne {es : List (String × Entry)} {n m : String} {v : Entry}
    (h : ¬ m = n) : findEntry (es ++ [(n, v)]) m = findEntry es m := by
  have h2 : ¬ n = m := fun hc => h hc.symm
  induction es with
  | nil => simp [findEntry, h2]
  | cons p rest ih =>
    rcases p with ⟨k, e⟩
    by_cases hk : k = m
    · simp [findEntry, hk]
    · simp [findEntry, hk, ih]

theorem lookupPath_append (p : FsPath) :
    ∀ (q : FsPath) (e : Entry),
      lookupPath e (p ++ q) = (lookupPath e p).bind fun x => lookupPath x q := by
  induction p with
  | nil => intro q e; simp [lookupPath]
  | cons n rest ih =>
    intro q e
    cases e with
    | file c => simp [lookupPath]
    | other => simp [lookupPath]
    | dir es =>
      cases hfe : findEntry es n with
      | some child => simp [lookupPath, hfe, ih]
      | none => simp [lookupPath, hfe]

theorem removePath_exists :
    ∀ (p : FsPath) (e v : Entry), lookupPath e p = some v → p ≠ [] →
      ∃ e2, removePath e p = some e2 := by
  intro p
  induction p with
  | nil => intro e v _ hne; exact absurd rfl hne
  | cons n rest ih =>
    intro e v h _
    cases e with
    | file c => simp [lookupPath] at h
    | other => simp [lookupPath] at h
    | dir es =>
      cases hfe : findEntry es n with
      | some child =>
        simp only [lookupPath, hfe] at h
        cases rest with
        | nil => exact ⟨.dir (delEntry es n), by simp [removePath, hfe]⟩
        | cons a b =>
          obtain ⟨c2, hc2⟩ := ih child v h (by simp)
          exact ⟨.dir (setEntry es n c2), by simp [removePath, hfe, hc2]⟩
      | none => simp [lookupPath, hfe] at h

theorem removePath_lookup_inside :
    ∀ (p : FsPath) (e e2 : Entry) (q : FsPath),
      removePath e p = some e2 → p <+: q → lookupPath e2 q = none := by
  intro p
  induction p with
  | nil => intro e e2 q h _; cases e <;> simp [removePath] at h
  | cons n rest ih =>
    intro e e2 q h hpq
    cases e with
    | file c => simp [removePath] at h
    | other => simp [removePath] at h
    | dir es =>
      cases q with
      | nil =>
        rcases hpq with ⟨t, ht⟩
        simp at ht
      | cons m q2 =>
        obtain ⟨hnm, hpq2⟩ := List.cons_prefix_cons.mp hpq
        subst hnm
        cases rest with
        | nil =>
          cases hfe : findEntry es n with
          | some w =>
            simp only [removePath, hfe, Option.some.injEq] at h
            subst h
            simp [lookupPath, findEntry_delEntry_self]
          | none => simp [removePath, hfe] at h
        | cons r0 r1 =>
          cases hfe : findEntry es n with
          | some child =>
            simp only [removePath, hfe, Option.map_eq_some'] at h
            obtain ⟨c2, hc2, hdir⟩ := h
            subst hdir
            simp only [lookupPath, findEntry_setEntry_self hfe]
            exact ih child c2 q2 hc2 hpq2
          | none => simp [removePath, hfe] at h

theorem removePath_lookup_outside :
    ∀ (p : FsPath) (e e2 : Entry) (q : FsPath),
      removePath e p = some e2 → ¬ p <+: q → ¬ q <+: p →
      lookupPath e2 q = lookupPath e q := by
  intro p
  induction p with
  | nil => intro e e2 q h _ _; cases e <;> simp [removePath] at h
  | cons n rest ih =>
    intro e e2 q h hpq hqp
    cases e with
    | file c => simp [removePath] at h
    | other => simp [removePath] at h
    | dir es =>
      cases q with
      | nil => exact absurd ⟨n :: rest, rfl⟩ hqp
      | cons m q2 =>
        by_cases hnm : n = m
        · subst hnm
          have hpq2 : ¬ rest <+: q2 := fun hc => hpq (List.cons_prefix_cons.mpr ⟨rfl, hc⟩)
          have hqp2 : ¬ q2 <+: rest := fun hc => hqp (List.cons_prefix_cons.mpr ⟨rfl, hc⟩)
          cases rest with
          | nil => exact absurd ⟨q2, rfl⟩ hpq
          | cons r0 r1 =>
            cases hfe : findEntry es n with
            | some child =>
              simp only [removePath, hfe, Option.map_eq_some'] at h
              obtain ⟨c2, hc2, hdir⟩ := h
              subst hdir
              simp only [lookupPath, findEntry_setEntry_self hfe, hfe]
              exact ih child c2 q2 hc2 hpq2 hqp2
            | none => simp [removePath, hfe] at h
        · cases rest with
          | nil =>
            cases hfe : findEntry es n with
            | some w =>
              simp only [removePath, hfe, Option.some.injEq] at h
              subst h
              simp [lookupPath, findEntry_delEntry_ne (fun hc => hnm hc.symm)]
            | none => simp [removePath, hfe] at h
          | cons r0 r1 =>
            cases hfe : findEntry es n with
            | some child =>
              simp only [removePath, hfe, Option.map_eq_some'] at h
              obtain ⟨c2, hc2, hdir⟩ := h
              subst hdir
              simp [lookupPath, findEntry_setEntry_ne (fun hc => hnm hc.symm)]
            | none => simp [removePath, hfe] at h

theorem insertAt_lookup_self :
    ∀ (q : FsPath) (e v r : Entry), insertAt e q v = .ok r →
      lookupPath r q = some v := by
  intro q
  induction q with
  | nil => intro e v r h; cases e <;> simp [insertAt] at h
  | cons n rest ih =>
    intro e v r h
    cases e with
    | file c => simp [insertAt] at h
    | other => simp [insertAt] at h
    | dir es =>
      cases rest with
      | nil =>
        cases hfe : findEntry es n with
        | some w => simp [insertAt, hfe] at h
        | none =>
          simp only [insertAt, hfe, Except.ok.injEq] at h
          subst h
          simp [lookupPath, findEntry_append_of_none hfe]
      | cons r0 r1 =>
        cases hfe : findEntry es n with
        | some child =>
          cases hin : insertAt child (r0 :: r1) v with
          | ok c2 =>
            simp only [insertAt, hfe, hin, Except.ok.injEq] at h
            subst h
            simp only [lookupPath, findEntry_setEntry_self hfe]
            exact ih child v c2 hin
          | error z => simp [insertAt, hfe, hin] at h
        | none => simp [insertAt, hfe] at h

theorem insertAt_lookup_outside :
    ∀ (q : FsPath) (e v r : Entry) (a : FsPath), insertAt e q v = .ok r →
      ¬ q <+: a → ¬ a <+: q → lookupPath r a = lookupPath e a := by
  intro q
  induction q with
  | nil => intro e v r a h _ _; cases e <;> simp [insertAt] at h
  | cons n rest ih =>
    intro e v r a h hqa haq
    cases e with
    | file c => simp [insertAt] at h
    | other => simp [insertAt] at h
    | dir es =>
      cases a with
      | nil => exact absurd ⟨n :: rest, rfl⟩ haq
      | cons m a2 =>
        by_cases hnm : n = m
        · subst hnm
          have hqa2 : ¬ rest <+: a2 := fun hc => hqa (List.cons_prefix_cons.mpr ⟨rfl, hc⟩)
          have haq2 : ¬ a2 <+: rest := fun hc => haq (List.cons_prefix_cons.mpr ⟨rfl, hc⟩)
          cases rest with
          | nil => exact absurd ⟨a2, rfl⟩ hqa
          | cons r0 r1 =>
            cases hfe : findEntry es n with
            | some child =>
              cases hin : insertAt child (r0 :: r1) v with
              | ok c2 =>
                simp only [insertAt, hfe, hin, Except.ok.injEq] at h
                subst h
                simp only [lookupPath, findEntry_setEntry_self hfe, hfe]
                exact ih child v c2 a2 hin hqa2 haq2
              | error z => simp [insertAt, hfe, hin] at h
            | none => simp [insertAt, hfe] at h
        · cases rest with
          | nil =>
            cases hfe : findEntry es n with
            | some w => simp [insertAt, hfe] at h
            | none =>
              simp only [insertAt, hfe, Except.ok.injEq] at h
              subst h
              simp [lookupPath, findEntry_append_ne (fun hc => hnm hc.symm)]
          | cons r0 r1 =>
            cases hfe : findEntry es n with
            | some child =>
              cases hin : insertAt child (r0 :: r1) v with
              | ok c2 =>
                simp only [insertAt, hfe, hin, Except.ok.injEq] at h
                subst h
                simp [lookupPath, findEntry_setEntry_ne (fun hc => hnm hc.symm)]
              | error z => simp [insertAt, hfe, hin] at h
            | none => simp [insertAt, hfe] at h

theorem fsRm_force_rec_of_exists (root : Entry) (b : FsPath) (hne : b ≠ [])
    (hb : fsExists root b = true) :
    ∃ e1, removePath root b = some e1 ∧ fsRm true true root b = .ok e1 := by
  cases b with
  | nil => exact absurd rfl hne
  | cons n rest =>
    have hsome : (lookupPath root (n :: rest)).isSome = true := by
      simpa [fsExists] using hb
    obtain ⟨w, hw⟩ := Option.isSome_iff_exists.mp hsome
    obtain ⟨e1, he1⟩ := removePath_exists (n :: rest) root w hw (by simp)
    refine ⟨e1, he1, ?_⟩
    unfold fsRm
    rw [hw]
    cases w <;> simp [he1]

/-! ### Claim C5 -/

/-- Claim C5: for a file `a` and a pre-existing `b`, a successful
`rename(a, b, overwrite := true)` leaves `b` holding `a`'s prior content
and `a` gone (the destination is force-removed recursively first, then
the rename is issued). -/
theorem rename_overwrite_replaces (root r : Entry) (a b : FsPath) (c : List Nat)
    (ha : lookupPath root a = some (.file c)) (hb : fsExists root b = true)
    (h : MemFS.rename root a b true = .ok r) :
    lookupPath r b = some (.file c) ∧ lookupPath r a = none := by
  unfold MemFS.rename at h
  simp only [hb, Bool.and_true, if_true, Bool.true_and, if_pos] at h
  cases b with
  | nil =>
    simp [fsRm, toFileSystemError] at h
  | cons bn brest =>
    obtain ⟨e1, hrm, hstep⟩ := fsRm_force_rec_of_exists root (bn :: brest) (by simp) hb
    rw [hstep] at h
    dsimp only at h
    cases hr : fsRename e1 a (bn :: brest) with
    | error z => rw [hr] at h; simp at h
    | ok r2 =>
      rw [hr] at h
      simp only [Except.ok.injEq] at h
      subst h
      unfold fsRename at hr
      cases hla : lookupPath e1 a with
      | none => rw [hla] at hr; simp at hr
      | some src =>
        rw [hla] at hr
        cases hrp : removePath e1 a with
        | none => rw [hrp] at hr; simp at hr
        | some pruned =>
          rw [hrp] at hr
          -- hr : insertAt pruned (bn :: brest) src = .ok r2
          have hba : ¬ (bn :: brest) <+: a := by
            intro hc
            rw [removePath_lookup_inside (bn :: brest) root e1 a hrm hc] at hla
            cases hla
          have hab : ¬ a <+: (bn :: brest) := by
            rintro ⟨t, ht⟩
            cases t with
            | nil =>
              rw [List.append_nil] at ht
              exact hba (ht ▸ ⟨[], List.append_nil a⟩)
            | cons t0 t1 =>
              have : lookupPath root (a ++ (t0 :: t1)) = none := by
                rw [lookupPath_append a (t0 :: t1) root, ha]
                simp [lookupPath]
              rw [ht] at this
              rw [show fsExists root (bn :: brest) =
                (lookupPath root (bn :: brest)).isSome from rfl, this] at hb
              cases hb
          have hsrc : src = .file c := by
            have := removePath_lookup_outside (bn :: brest) root e1 a hrm hba hab
            rw [this, ha] at hla
            exact (Option.some.injEq _ _ ▸ hla.symm :)
          subst hsrc
          refine ⟨insertAt_lookup_self (bn :: brest) pruned (.file c) r2 hr, ?_⟩
          rw [insertAt_lookup_outside (bn :: brest) pruned (.file c) r2 a hr hba hab]
          exact removePath_lookup_inside a e1 pruned a hrp ⟨[], List.append_nil a⟩

/-- Concrete run of Claim C5: renaming `/a` over the existing `/b` with
`overwrite := true` makes `/b` hold `/a`'s old bytes and removes `/a`. -/
theorem rename_overwrite_replaces_witness :
    lookupPath (Entry.dir [("b", Entry.file [1])]) ["b"] = some (.file [1]) ∧
      lookupPath (Entry.dir [("b", Entry.file [1])]) ["a"] = none :=
  rename_overwrite_replaces (Entry.dir [("a", Entry.file [1]), ("b", Entry.file [2])])
    (Entry.dir [("b", Entry.file [1])]) ["a"] ["b"] [1] rfl rfl rfl

/-! ### Claim C2 -/

/-- Claim C2, counterexample: with `maxResults = 1` the filename search
returns 2 results on the store `/d/a.txt`, `/b.txt` with pattern `"txt"`.
The limit check runs before each directory descent and after each append,
but it only returns from the current folder call: after the match inside
`/d` fills the quota, the root folder call continues with its remaining
entries and appends `/b.txt` without any check before the push. -/
theorem fileSearch_exceeds_maxResults :
    ¬ ((provideFileSearchResults
        (Entry.dir [("d", Entry.dir [("a.txt", Entry.file [1])]),
          ("b.txt", Entry.file [2])])
        "txt" [] (some 1) false).length ≤ 1) := by
  decide

theorem maxHit_false_lt {m k : Nat} (hm : 0 < m) (h : maxHit (some m) k = false) :
    k < m := by
  by_contra hc
  have ht : maxHit (some m) k = true := by
    simp only [maxHit, Bool.and_eq_true, Bool.not_eq_true', beq_eq_false_iff_ne,
      decide_eq_true_eq]
    omega
  rw [ht] at h
  cases h

theorem fileSearchEntries_flat_len (pl : String) (m : Nat) (cancelled : Bool)
    (hm : 0 < m) :
    ∀ (es : List (String × Entry)) (folderPath : FsPath) (results : List FsPath),
      (∀ p ∈ es, p.2.isFileE = true) → results.length < m →
      (fileSearchEntries pl (some m) cancelled es folderPath results).length ≤ m := by
  intro es
  induction es with
  | nil =>
    intro fp results _ hlt
    simp only [fileSearchEntries]
    omega
  | cons p rest ih =>
    rcases p with ⟨name, child⟩
    intro fp results hall hlt
    have hcf : child.isFileE = true := hall (name, child) (by simp)
    cases child with
    | dir es2 => simp [Entry.isFileE] at hcf
    | other => simp [Entry.isFileE] at hcf
    | file c =>
      have hrest : ∀ p ∈ rest, p.2.isFileE = true := fun p hp => hall p (by simp [hp])
      by_cases hc : cancelled = true
      · subst hc
        simp only [fileSearchEntries, if_true]
        omega
      · have hcf2 : cancelled = false := by simpa using hc
        subst hcf2
        simp only [fileSearchEntries, Bool.false_eq_true, if_false]
        by_cases hmatch : fileNameMatches name pl = true
        · rw [if_pos hmatch]
          by_cases hhit : maxHit (some m) (results ++ [fp ++ [name]]).length = true
          · rw [if_pos hhit]
            simp only [List.length_append, List.length_cons, List.length_nil]
            omega
          · rw [if_neg hhit]
            have hlt2 := maxHit_false_lt hm ((Bool.not_eq_true _).mp hhit)
            exact ih fp (results ++ [fp ++ [name]]) hrest hlt2
        · rw [if_neg hmatch]
          exact ih fp results hrest hlt

/-- Flat special case of the single-directory bound, kept as a concrete
stepping stone: a store that is one flat root directory of files stays
within `maxResults`. -/
theorem fileSearch_flat_bound (es : List (String × Entry)) (pattern : String) (m : Nat)
    (cancelled : Bool) (hm : 0 < m) (hall : ∀ p ∈ es, p.2.isFileE = true) :
    (provideFileSearchResults (Entry.dir es) pattern [] (some m) cancelled).length ≤ m
    ∧ provideFileSearchResults
        (Entry.dir [("xa", Entry.file []), ("ya", Entry.file []), ("za", Entry.file [])])
        "a" [] (some 1) false = [["xa"]] := by
  constructor
  · by_cases hc : cancelled = true
    · subst hc
      simp [provideFileSearchResults, fileSearchAt, lookupPath, fileSearchFolder]
    · have hcf2 : cancelled = false := by simpa using hc
      subst hcf2
      simp only [provideFileSearchResults, List.foldl_nil, List.isEmpty_nil, if_true,
        fileSearchAt, lookupPath, fileSearchFolder, Bool.false_eq_true, if_false]
      exact fileSearchEntries_flat_len (strLower pattern) m false hm es [] []
        hall (by simpa using hm)
  · rfl

/-- Concrete run of the amended Claim C2: a flat two-file store with
`maxResults = 2` stays within the bound, and the 3-matching-siblings
instance returns exactly one result. -/
theorem fileSearch_flat_bound_witness :
    (provideFileSearchResults (Entry.dir [("a1", Entry.file []), ("b", Entry.file [])])
        "a" [] (some 2) false).length ≤ 2
    ∧ provideFileSearchResults
        (Entry.dir [("xa", Entry.file []), ("ya", Entry.file []), ("za", Entry.file [])])
        "a" [] (some 1) false = [["xa"]] :=
  fileSearch_flat_bound [("a1", Entry.file []), ("b", Entry.file [])] "a" 2 false
    (by decide) (by decide)

/-! ### Well-formedness lemmas -/

theorem findEntry_isSome_of_mem {es : List (String × Entry)} {n : String} {c : Entry}
    (h : (n, c) ∈ es) : (findEntry es n).isSome = true := by
  induction es with
  | nil => simp at h
  | cons p rest ih =>
    rcases p with ⟨k, e⟩
    by_cases hk : k = n
    · simp [findEntry, hk]
    · rcases List.mem_cons.mp h with h | h
      · rw [Prod.mk.injEq] at h
        exact absurd h.1.symm hk
      · simp [findEntry, hk, ih h]

theorem wfEntries_head_and_rest {k : String} {e : Entry} {rest : List (String × Entry)}
    (h : wfEntries ((k, e) :: rest) = true) :
    (findEntry rest k).isSome = false ∧ wfEntry e = true ∧ wfEntries rest = true := by
  simp only [wfEntries, Bool.and_eq_true, Bool.not_eq_true'] at h
  exact ⟨h.1.1, h.1.2, h.2⟩

theorem wf_findEntry_of_mem :
    ∀ {es : List (String × Entry)} {n : String} {c : Entry},
      wfEntries es = true → (n, c) ∈ es →
      findEntry es n = some c ∧ wfEntry c = true := by
  intro es
  induction es with
  | nil => intro n c _ h; simp at h
  | cons p rest ih =>
    rcases p with ⟨k, e⟩
    intro n c hwf hmem
    obtain ⟨hnodup, hwfe, hwfrest⟩ := wfEntries_head_and_rest hwf
    rcases List.mem_cons.mp hmem with h | h
    · rw [Prod.mk.injEq] at h
      obtain ⟨hn, hc⟩ := h
      subst hn
      subst hc
      exact ⟨by simp [findEntry], hwfe⟩
    · have hkn : ¬ k = n := by
        intro hkn
        subst hkn
        rw [findEntry_isSome_of_mem h] at hnodup
        cases hnodup
      rw [show findEntry ((k, e) :: rest) n = findEntry rest n by simp [findEntry, hkn]]
      exact ih hwfrest h

theorem wf_findEntry {es : List (String × Entry)} {n : String} {c : Entry}
    (hwf : wfEntries es = true) (h : findEntry es n = some c) : wfEntry c = true := by
  induction es with
  | nil => simp [findEntry] at h
  | cons p rest ih =>
    rcases p with ⟨k, e⟩
    obtain ⟨_, hwfe, hwfrest⟩ := wfEntries_head_and_rest hwf
    by_cases hk : k = n
    · simp only [findEntry, beq_iff_eq, hk, if_true, Option.some.injEq] at h
      subst h
      exact hwfe
    · simp only [findEntry, beq_iff_eq, hk, if_false] at h
      exact ih hwfrest h

theorem wf_lookupPath :
    ∀ (fp : FsPath) (root e : Entry), wfEntry root = true →
      lookupPath root fp = some e → wfEntry e = true := by
  intro fp
  induction fp with
  | nil =>
    intro root e hwf h
    simp only [lookupPath, Option.some.injEq] at h
    subst h
    exact hwf
  | cons n rest ih =>
    intro root e hwf h
    cases root with
    | file c => simp [lookupPath] at h
    | other => simp [lookupPath] at h
    | dir es =>
      cases hfe : findEntry es n with
      | some child =>
        simp only [lookupPath, hfe] at h
        exact ih child e (wf_findEntry (by simpa [wfEntry] using hwf) hfe) h
      | none => simp [lookupPath, hfe] at h

theorem lookupPath_child {root : Entry} {fp : FsPath} {es : List (String × Entry)}
    {name : String} {child : Entry} (hfp : lookupPath root fp = some (.dir es))
    (hwf : wfEntries es = true) (hmem : (name, child) ∈ es) :
    lookupPath root (fp ++ [name]) = some child := by
  rw [lookupPath_append fp [name] root, hfp]
  simp [lookupPath, (wf_findEntry_of_mem hwf hmem).1]

/-! ### Claim C10, filename-search half -/

theorem fileSearchEntries_files_aux (root : Entry) (pl : String) (mr : Option Nat)
    (cancelled : Bool) (es0 : List (String × Entry)) (fp : FsPath)
    (IH : ∀ name child, (name, child) ∈ es0 →
      ∀ results : List FsPath,
        (∀ p ∈ results, ∃ cc, lookupPath root p = some (.file cc)) →
        ∀ p ∈ fileSearchFolder pl mr cancelled child (fp ++ [name]) results,
          ∃ cc, lookupPath root p = some (.file cc))
    (hfp : lookupPath root fp = some (.dir es0)) (hwf0 : wfEntries es0 = true) :
    ∀ es : List (String × Entry), (∀ x ∈ es, x ∈ es0) →
      ∀ results : List FsPath,
        (∀ p ∈ results, ∃ cc, lookupPath root p = some (.file cc)) →
        ∀ p ∈ fileSearchEntries pl mr cancelled es fp results,
          ∃ cc, lookupPath root p = some (.file cc) := by
  intro es
  induction es with
  | nil =>
    intro _ results hres
    simpa [fileSearchEntries] using hres
  | cons x rest ih =>
    rcases x with ⟨name, child⟩
    intro hsub results hres
    have hmem0 : (name, child) ∈ es0 := hsub (name, child) (by simp)
    have hsubrest : ∀ x ∈ rest, x ∈ es0 := fun x hx => hsub x (by simp [hx])
    by_cases hc : cancelled = true
    · subst hc
      simpa [fileSearchEntries] using hres
    · have hc2 : cancelled = false := by simpa using hc
      subst hc2
      cases child with
      | dir es2 =>
        simp only [fileSearchEntries, Bool.false_eq_true, if_false]
        by_cases hhit : maxHit mr results.length = true
        · rw [if_pos hhit]
          exact hres
        · rw [if_neg hhit]
          exact ih hsubrest _
            (IH name (.dir es2) hmem0 results hres)
      | file c =>
        simp only [fileSearchEntries, Bool.false_eq_true, if_false]
        have hresnew : ∀ p ∈ results ++ [fp ++ [name]],
            ∃ cc, lookupPath root p = some (.file cc) := by
          intro p hp
          rcases List.mem_append.mp hp with hp | hp
          · exact hres p hp
          · rw [List.mem_singleton.mp hp]
            exact ⟨c, lookupPath_child hfp hwf0 hmem0⟩
        by_cases hmatch : fileNameMatches name pl = true
        · rw [if_pos hmatch]
          by_cases hhit : maxHit mr (results ++ [fp ++ [name]]).length = true
          · rw [if_pos hhit]
            exact hresnew
          · rw [if_neg hhit]
            exact ih hsubrest _ hresnew
        · rw [if_neg hmatch]
          exact ih hsubrest _ hres
      | other =>
        simp only [fileSearchEntries, Bool.false_eq_true, if_false]
        exact ih hsubrest _ hres

theorem fileSearchFolder_files (root : Entry) (pl : String) (mr : Option Nat)
    (cancelled : Bool) (e : Entry) :
    ∀ (fp : FsPath), lookupPath root fp = some e → wfEntry e = true →
      ∀ results : List FsPath,
        (∀ p ∈ results, ∃ cc, lookupPath root p = some (.file cc)) →
        ∀ p ∈ fileSearchFolder pl mr cancelled e fp results,
          ∃ cc, lookupPath root p = some (.file cc) := by
  intro fp he hwf results hres
  by_cases hc : cancelled = true
  · subst hc
    simpa [fileSearchFolder.eq_def] using hres
  · have hc2 : cancelled = false := by simpa using hc
    subst hc2
    cases e with
    | file c => simpa [fileSearchFolder] using hres
    | other => simpa [fileSearchFolder] using hres
    | dir es =>
      simp only [fileSearchFolder, Bool.false_eq_true, if_false]
      exact fileSearchEntries_files_aux root pl mr false es fp
        (fun name child hmem results2 hres2 =>
          fileSearchFolder_files root pl mr false child (fp ++ [name])
            (lookupPath_child he (by simpa [wfEntry] using hwf) hmem)
            (wf_findEntry_of_mem (by simpa [wfEntry] using hwf) hmem).2 results2 hres2)
        he (by simpa [wfEntry] using hwf) es (fun x hx => hx) results hres
termination_by sizeOf e
decreasing_by
  have h1 := List.sizeOf_lt_of_mem hmem
  simp only [Prod.mk.sizeOf_spec] at h1
  have he2 : e = Entry.dir es := by assumption
  rw [he2, Entry.dir.sizeOf_spec]
  omega

/-! ### Claim C10, content-search half -/

theorem regexLineLoop_paths (engine : RegexEngine) (mr : Option Nat) (cancelled : Bool)
    (filePath : FsPath) (lineNumber : Nat) (line : String) (Q : FsPath → Prop)
    (hQ : Q filePath) :
    ∀ (fuel li : Nat) (ctx : TCtx), (∀ rep ∈ ctx.reports, Q rep.path) →
      ∀ rep ∈ (regexLineLoop engine mr cancelled filePath lineNumber line
        fuel li ctx).1.reports, Q rep.path := by
  intro fuel
  induction fuel with
  | zero =>
    intro li ctx h
    simpa [regexLineLoop] using h
  | succ f ih =>
    intro li ctx h
    simp only [regexLineLoop]
    cases hx : engine line li with
    | none => simpa using h
    | some pr =>
      rcases pr with ⟨i, len⟩
      dsimp only
      by_cases hl : (ctx.limitHit || cancelled) = true
      · rw [if_pos hl]
        simpa using h
      · rw [if_neg hl]
        have hnew : ∀ rep ∈ ctx.reports ++
            [{ path := filePath, line := lineNumber, colStart := i, colEnd := i + len,
               previewText := line, previewStart := i, previewEnd := i + len }],
            Q rep.path := by
          intro rep hrep
          rcases List.mem_append.mp hrep with hrep | hrep
          · exact h rep hrep
          · rw [List.mem_singleton.mp hrep]
            exact hQ
        by_cases hm : maxHit mr (ctx.resultCount + 1) = true
        · rw [if_pos hm]
          exact hnew
        · rw [if_neg hm]
          exact ih (i + len) _ hnew

theorem literalLineLoop_paths (searchString : String) (mr : Option Nat) (cancelled : Bool)
    (filePath : FsPath) (lineNumber : Nat) (line searchLine : String) (Q : FsPath → Prop)
    (hQ : Q filePath) :
    ∀ (fuel li : Nat) (ctx : TCtx), (∀ rep ∈ ctx.reports, Q rep.path) →
      ∀ rep ∈ (literalLineLoop searchString mr cancelled filePath lineNumber line
        searchLine fuel li ctx).1.reports, Q rep.path := by
  intro fuel
  induction fuel with
  | zero =>
    intro li ctx h
    simpa [literalLineLoop] using h
  | succ f ih =>
    intro li ctx h
    simp only [literalLineLoop]
    cases hx : jsIndexOfFrom searchLine.data searchString.data li with
    | none => simpa using h
    | some i =>
      dsimp only
      by_cases hl : (ctx.limitHit || cancelled) = true
      · rw [if_pos hl]
        simpa using h
      · rw [if_neg hl]
        have hnew : ∀ rep ∈ ctx.reports ++
            [{ path := filePath, line := lineNumber, colStart := i,
               colEnd := i + searchString.length,
               previewText := line, previewStart := i,
               previewEnd := i + searchString.length }],
            Q rep.path := by
          intro rep hrep
          rcases List.mem_append.mp hrep with hrep | hrep
          · exact h rep hrep
          · rw [List.mem_singleton.mp hrep]
            exact hQ
        by_cases hm : maxHit mr (ctx.resultCount + 1) = true
        · rw [if_pos hm]
          exact hnew
        · rw [if_neg hm]
          exact ih (i + 1) _ hnew

theorem textSearchLines_paths (q : TextQuery) (engine : RegexEngine) (mr : Option Nat)
    (cancelled : Bool) (filePath : FsPath) (Q : FsPath → Prop) (hQ : Q filePath) :
    ∀ (lines : List String) (lineNumber : Nat) (ctx : TCtx),
      (∀ rep ∈ ctx.reports, Q rep.path) →
      ∀ rep ∈ (textSearchLines q engine mr cancelled filePath lines lineNumber ctx).reports,
        Q rep.path := by
  intro lines
  induction lines with
  | nil =>
    intro lineNumber ctx h
    simpa [textSearchLines] using h
  | cons line rest ih =>
    intro lineNumber ctx h
    simp only [textSearchLines]
    by_cases hl : (cancelled || ctx.limitHit) = true
    · rw [if_pos hl]
      exact h
    · rw [if_neg hl]
      by_cases hre : q.isRegExp = true
      · rw [if_pos hre]
        exact ih (lineNumber + 1) _
          (regexLineLoop_paths engine mr cancelled filePath lineNumber line Q hQ
            (lineFuel line mr) 0 ctx h)
      · rw [if_neg hre]
        exact ih (lineNumber + 1) _
          (literalLineLoop_paths (if q.isCaseSensitive then q.pattern else strLower q.pattern)
            mr cancelled filePath lineNumber line
            (if q.isCaseSensitive then line else strLower line) Q hQ
            (lineFuel line mr) 0 ctx h)

theorem textSearchInFile_paths (q : TextQuery) (engine : RegexEngine) (mr : Option Nat)
    (cancelled : Bool) (content : List Nat) (filePath : FsPath) (ctx : TCtx)
    (Q : FsPath → Prop) (hQ : Q filePath) (h : ∀ rep ∈ ctx.reports, Q rep.path) :
    ∀ rep ∈ (textSearchInFile q engine mr cancelled content filePath ctx).reports,
      Q rep.path := by
  unfold textSearchInFile
  by_cases hl : (cancelled || ctx.limitHit) = true
  · rw [if_pos hl]
    exact h
  · rw [if_neg hl]
    exact textSearchLines_paths q engine mr cancelled filePath Q hQ
      (splitLines (decodeText content)) 0 ctx h

theorem textSearchEntries_files_aux (root : Entry) (q : TextQuery) (engine : RegexEngine)
    (mr : Option Nat) (cancelled : Bool) (es0 : List (String × Entry)) (fp : FsPath)
    (IH : ∀ name child, (name, child) ∈ es0 →
      ∀ ctx : TCtx,
        (∀ rep ∈ ctx.reports, ∃ cc, lookupPath root rep.path = some (.file cc)) →
        ∀ rep ∈ (textSearchFolder q engine mr cancelled child (fp ++ [name]) ctx).reports,
          ∃ cc, lookupPath root rep.path = some (.file cc))
    (hfp : lookupPath root fp = some (.dir es0)) (hwf0 : wfEntries es0 = true) :
    ∀ es : List (String × Entry), (∀ x ∈ es, x ∈ es0) →
      ∀ ctx : TCtx,
        (∀ rep ∈ ctx.reports, ∃ cc, lookupPath root rep.path = some (.file cc)) →
        ∀ rep ∈ (textSearchEntries q engine mr cancelled es fp ctx).reports,
          ∃ cc, lookupPath root rep.path = some (.file cc) := by
  intro es
  induction es with
  | nil =>
    intro _ ctx h
    simpa [textSearchEntries] using h
  | cons x rest ih =>
    rcases x with ⟨name, child⟩
    intro hsub ctx h
    have hmem0 : (name, child) ∈ es0 := hsub (name, child) (by simp)
    have hsubrest : ∀ x ∈ rest, x ∈ es0 := fun x hx => hsub x (by simp [hx])
    simp only [textSearchEntries]
    by_cases hl : (cancelled || ctx.limitHit) = true
    · rw [if_pos hl]
      exact h
    · rw [if_neg hl]
      cases child with
      | dir es2 => exact ih hsubrest _ (IH name (.dir es2) hmem0 ctx h)
      | file c =>
        refine ih hsubrest _ (textSearchInFile_paths q engine mr cancelled c
          (fp ++ [name]) ctx (fun p => ∃ cc, lookupPath root p = some (.file cc))
          ⟨c, lookupPath_child hfp hwf0 hmem0⟩ h)
      | other => exact ih hsubrest _ h

theorem textSearchFolder_files (root : Entry) (q : TextQuery) (engine : RegexEngine)
    (mr : Option Nat) (cancelled : Bool) (e : Entry) :
    ∀ (fp : FsPath), lookupPath root fp = some e → wfEntry e = true →
      ∀ ctx : TCtx,
        (∀ rep ∈ ctx.reports, ∃ cc, lookupPath root rep.path = some (.file cc)) →
        ∀ rep ∈ (textSearchFolder q engine mr cancelled e fp ctx).reports,
          ∃ cc, lookupPath root rep.path = some (.file cc) := by
  intro fp he hwf ctx h
  rw [textSearchFolder.eq_def]
  dsimp only
  by_cases hl : (cancelled || ctx.limitHit) = true
  · rw [if_pos hl]
    exact h
  · rw [if_neg hl]
    cases e with
    | file c => exact h
    | other => exact h
    | dir es =>
      exact textSearchEntries_files_aux root q engine mr cancelled es fp
        (fun name child hmem ctx2 h2 =>
          textSearchFolder_files root q engine mr cancelled child (fp ++ [name])
            (lookupPath_child he (by simpa [wfEntry] using hwf) hmem)
            (wf_findEntry_of_mem (by simpa [wfEntry] using hwf) hmem).2 ctx2 h2)
        he (by simpa [wfEntry] using hwf) es (fun x hx => hx) ctx h
termination_by sizeOf e
decreasing_by
  have h1 := List.sizeOf_lt_of_mem hmem
  simp only [Prod.mk.sizeOf_spec] at h1
  have he2 : e = Entry.dir es := by assumption
  rw [he2, Entry.dir.sizeOf_spec]
  omega

/-! ### Claim C10, assembled -/

theorem fileSearchAt_files (root : Entry) (pl : String) (mr : Option Nat)
    (cancelled : Bool) (hwf : wfEntry root = true) (folderPath : FsPath)
    (results : List FsPath)
    (hres : ∀ p ∈ results, ∃ cc, lookupPath root p = some (.file cc)) :
    ∀ p ∈ fileSearchAt root pl mr cancelled folderPath results,
      ∃ cc, lookupPath root p = some (.file cc) := by
  unfold fileSearchAt
  cases hl : lookupPath root folderPath with
  | none => exact hres
  | some e =>
    exact fileSearchFolder_files root pl mr cancelled e folderPath hl
      (wf_lookupPath folderPath root e hwf hl) results hres

theorem textSearchAt_files (root : Entry) (q : TextQuery) (engine : RegexEngine)
    (mr : Option Nat) (cancelled : Bool) (hwf : wfEntry root = true)
    (folderPath : FsPath) (ctx : TCtx)
    (h : ∀ rep ∈ ctx.reports, ∃ cc, lookupPath root rep.path = some (.file cc)) :
    ∀ rep ∈ (textSearchAt root q engine mr cancelled folderPath ctx).reports,
      ∃ cc, lookupPath root rep.path = some (.file cc) := by
  unfold textSearchAt
  cases hl : lookupPath root folderPath with
  | none => exact h
  | some e =>
    exact textSearchFolder_files root q engine mr cancelled e folderPath hl
      (wf_lookupPath folderPath root e hwf hl) ctx h

/-- Claim C10: in a well-formed store (pairwise-distinct sibling names, as
a real filesystem guarantees), a store entry whose stat kind is neither
regular file nor directory is never appended to filename-search results
and never content-searched: every identifier the filename search returns,
and every progress event the content search emits, refers to a regular
file of the store. -/
theorem search_results_are_files (root : Entry) (pattern : String) (q : TextQuery)
    (engine : RegexEngine) (includes : List FsPath) (mr : Option Nat)
    (cancelled : Bool) (hwf : wfEntry root = true) :
    (∀ p ∈ provideFileSearchResults root pattern includes mr cancelled,
      ∃ cc, lookupPath root p = some (.file cc))
    ∧ (∀ rep ∈ (provideTextSearchResults root q engine includes mr cancelled).reports,
      ∃ cc, lookupPath root rep.path = some (.file cc)) := by
  constructor
  · have hfold : ∀ (incs : List FsPath) (results : List FsPath),
        (∀ p ∈ results, ∃ cc, lookupPath root p = some (.file cc)) →
        ∀ p ∈ incs.foldl (fun results folderPath =>
            if cancelled then results
            else fileSearchAt root (strLower pattern) mr cancelled folderPath results)
            results,
          ∃ cc, lookupPath root p = some (.file cc) := by
      intro incs
      induction incs with
      | nil =>
        intro results h
        simpa using h
      | cons x rest ih =>
        intro results h
        simp only [List.foldl_cons]
        apply ih
        by_cases hc : cancelled = true
        · rw [if_pos hc]
          exact h
        · rw [if_neg hc]
          exact fileSearchAt_files root _ mr cancelled hwf x results h
    intro p hp
    unfold provideFileSearchResults at hp
    dsimp only at hp
    by_cases hemp : includes.isEmpty = true
    · rw [if_pos hemp] at hp
      exact fileSearchAt_files root _ mr cancelled hwf [] _
        (hfold includes [] (by simp)) p hp
    · rw [if_neg hemp] at hp
      exact hfold includes [] (by simp) p hp
  · have hfold : ∀ (incs : List FsPath) (ctx : TCtx),
        (∀ rep ∈ ctx.reports, ∃ cc, lookupPath root rep.path = some (.file cc)) →
        ∀ rep ∈ (incs.foldl (fun ctx folderPath =>
            if cancelled || ctx.limitHit then ctx
            else textSearchAt root q engine mr cancelled folderPath ctx) ctx).reports,
          ∃ cc, lookupPath root rep.path = some (.file cc) := by
      intro incs
      induction incs with
      | nil =>
        intro ctx h
        simpa using h
      | cons x rest ih =>
        intro ctx h
        simp only [List.foldl_cons]
        apply ih
        by_cases hc : (cancelled || ctx.limitHit) = true
        · rw [if_pos hc]
          exact h
        · rw [if_neg hc]
          exact textSearchAt_files root q engine mr cancelled hwf x ctx h
    intro rep hrep
    unfold provideTextSearchResults at hrep
    dsimp only at hrep
    by_cases hemp : includes.isEmpty = true
    · rw [if_pos hemp] at hrep
      exact textSearchAt_files root q engine mr cancelled hwf [] _
        (hfold includes ⟨false, 0, []⟩ (by simp)) rep hrep
    · rw [if_neg hemp] at hrep
      exact hfold includes ⟨false, 0, []⟩ (by simp) rep hrep

/-- Concrete run of Claim C10: in a store holding a symlink-kind entry
`/ln` and the file `/a.txt`, the filename search for `"a"` returns
`/a.txt`, and applying the theorem to that member shows it is a regular
file of the store. -/
theorem search_results_are_files_witness :
    ∃ cc, lookupPath (Entry.dir [("ln", Entry.other), ("a.txt", Entry.file [120])])
      ["a.txt"] = some (.file cc) :=
  (search_results_are_files
      (Entry.dir [("ln", Entry.other), ("a.txt", Entry.file [120])]) "a"
      ⟨"a", false, false⟩ (fun _ _ => none) [] none false (by decide)).1
    ["a.txt"] (by decide)

/-! ### Claim C7 -/

/-- Claim C7: with `isRegExp = false` the per-line occurrences are found
by repeated forward substring search advancing the cursor one character
past the previous match start, so adjacent and overlapping literal matches
are each reported: the case-insensitive search for `"foo"` on the line
`"Foo bar foo"` reports exactly the column ranges `[0,3)` and `[8,11)`
(first conjunct, with full previews), and the case-sensitive search for
`"aa"` on `"aaa"` reports the two overlapping ranges `[0,2)` and `[1,3)`
(second conjunct). -/
theorem literal_search_overlapping_matches :
    provideTextSearchResults (Entry.dir [("a.txt", Entry.file (strBytes "Foo bar foo"))])
        ⟨"foo", false, false⟩ (fun _ _ => none) [] none false =
      { limitHit := false,
        reports := [
          { path := ["a.txt"], line := 0, colStart := 0, colEnd := 3,
            previewText := "Foo bar foo", previewStart := 0, previewEnd := 3 },
          { path := ["a.txt"], line := 0, colStart := 8, colEnd := 11,
            previewText := "Foo bar foo", previewStart := 8, previewEnd := 11 }] }
    ∧ (provideTextSearchResults (Entry.dir [("x", Entry.file (strBytes "aaa"))])
        ⟨"aa", false, true⟩ (fun _ _ => none) [] none false).reports.map
        (fun r => (r.colStart, r.colEnd)) = [(0, 2), (1, 3)]  := by
  exact ⟨by decide, by decide⟩

/-! ### Claim C3 -/

theorem maxHit_some_eq {m k : Nat} (hm : 0 < m) :
    maxHit (some m) k = decide (m ≤ k) := by
  have h0 : (m == 0) = false := by
    simp only [beq_eq_false_iff_ne, ne_eq]
    omega
  simp [maxHit, h0]

theorem regexLineLoop_inv (engine : RegexEngine) (m : Nat) (hm : 0 < m)
    (cancelled : Bool) (filePath : FsPath) (lineNumber : Nat) (line : String) :
    ∀ (fuel li : Nat) (ctx : TCtx), LimitInv m ctx →
      LimitInv m (regexLineLoop engine (some m) cancelled filePath lineNumber line
        fuel li ctx).1 := by
  intro fuel
  induction fuel with
  | zero =>
    intro li ctx h
    simpa [regexLineLoop] using h
  | succ f ih =>
    intro li ctx h
    simp only [regexLineLoop]
    cases hx : engine line li with
    | none => exact h
    | some pr =>
      rcases pr with ⟨i, len⟩
      dsimp only
      by_cases hl : (ctx.limitHit || cancelled) = true
      · rw [if_pos hl]
        exact h
      · rw [if_neg hl]
        obtain ⟨h1, h2, h3⟩ := h
        have hflag : ctx.limitHit = false := by
          rcases Bool.or_eq_false_iff.mp ((Bool.not_eq_true _).mp hl) with ⟨hf, _⟩
          exact hf
        have hlt : ctx.resultCount < m := by
          rw [hflag] at h3
          have := of_decide_eq_false h3.symm
          omega
        by_cases hm2 : maxHit (some m) (ctx.resultCount + 1) = true
        · rw [if_pos hm2]
          refine ⟨by simp [h1], by simp; omega, ?_⟩
          rw [maxHit_some_eq hm] at hm2
          simp [hm2]
        · rw [if_neg hm2]
          apply ih
          refine ⟨by simp [h1], by simp; omega, ?_⟩
          rw [maxHit_some_eq hm] at hm2
          simp only [hflag]
          simpa using ((Bool.not_eq_true _).mp hm2).symm

theorem literalLineLoop_inv (searchString : String) (m : Nat) (hm : 0 < m)
    (cancelled : Bool) (filePath : FsPath) (lineNumber : Nat) (line searchLine : String) :
    ∀ (fuel li : Nat) (ctx : TCtx), LimitInv m ctx →
      LimitInv m (literalLineLoop searchString (some m) cancelled filePath lineNumber
        line searchLine fuel li ctx).1 := by
  intro fuel
  induction fuel with
  | zero =>
    intro li ctx h
    simpa [literalLineLoop] using h
  | succ f ih =>
    intro li ctx h
    simp only [literalLineLoop]
    cases hx : jsIndexOfFrom searchLine.data searchString.data li with
    | none => exact h
    | some i =>
      dsimp only
      by_cases hl : (ctx.limitHit || cancelled) = true
      · rw [if_pos hl]
        exact h
      · rw [if_neg hl]
        obtain ⟨h1, h2, h3⟩ := h
        have hflag : ctx.limitHit = false := by
          rcases Bool.or_eq_false_iff.mp ((Bool.not_eq_true _).mp hl) with ⟨hf, _⟩
          exact hf
        have hlt : ctx.resultCount < m := by
          rw [hflag] at h3
          have := of_decide_eq_false h3.symm
          omega
        by_cases hm2 : maxHit (some m) (ctx.resultCount + 1) = true
        · rw [if_pos hm2]
          refine ⟨by simp [h1], by simp; omega, ?_⟩
          rw [maxHit_some_eq hm] at hm2
          simp [hm2]
        · rw [if_neg hm2]
          apply ih
          refine ⟨by simp [h1], by simp; omega, ?_⟩
          rw [maxHit_some_eq hm] at hm2
          simp only [hflag]
          simpa using ((Bool.not_eq_true _).mp hm2).symm

theorem textSearchLines_inv (q : TextQuery) (engine : RegexEngine) (m : Nat)
    (hm : 0 < m) (cancelled : Bool) (filePath : FsPath) :
    ∀ (lines : List String) (lineNumber : Nat) (ctx : TCtx), LimitInv m ctx →
      LimitInv m (textSearchLines q engine (some m) cancelled filePath lines
        lineNumber ctx) := by
  intro lines
  induction lines with
  | nil =>
    intro lineNumber ctx h
    simpa [textSearchLines] using h
  | cons line rest ih =>
    intro lineNumber ctx h
    simp only [textSearchLines]
    by_cases hl : (cancelled || ctx.limitHit) = true
    · rw [if_pos hl]
      exact h
    · rw [if_neg hl]
      by_cases hre : q.isRegExp = true
      · rw [if_pos hre]
        exact ih (lineNumber + 1) _
          (regexLineLoop_inv engine m hm cancelled filePath lineNumber line
            (lineFuel line (some m)) 0 ctx h)
      · rw [if_neg hre]
        exact ih (lineNumber + 1) _
          (literalLineLoop_inv (if q.isCaseSensitive then q.pattern else strLower q.pattern)
            m hm cancelled filePath lineNumber line
            (if q.isCaseSensitive then line else strLower line)
            (lineFuel line (some m)) 0 ctx h)

theorem textSearchInFile_inv (q : TextQuery) (engine : RegexEngine) (m : Nat)
    (hm : 0 < m) (cancelled : Bool) (content : List Nat) (filePath : FsPath)
    (ctx : TCtx) (h : LimitInv m ctx) :
    LimitInv m (textSearchInFile q engine (some m) cancelled content filePath ctx) := by
  unfold textSearchInFile
  by_cases hl : (cancelled || ctx.limitHit) = true
  · rw [if_pos hl]
    exact h
  · rw [if_neg hl]
    exact textSearchLines_inv q engine m hm cancelled filePath
      (splitLines (decodeText content)) 0 ctx h

theorem textSearchEntries_inv_aux (q : TextQuery) (engine : RegexEngine) (m : Nat)
    (hm : 0 < m) (cancelled : Bool) :
    ∀ (es : List (String × Entry)) (fp : FsPath) (ctx : TCtx),
      (∀ name child, (name, child) ∈ es → ∀ (fp2 : FsPath) (ctx2 : TCtx),
        LimitInv m ctx2 →
        LimitInv m (textSearchFolder q engine (some m) cancelled child fp2 ctx2)) →
      LimitInv m ctx →
      LimitInv m (textSearchEntries q engine (some m) cancelled es fp ctx) := by
  intro es
  induction es with
  | nil =>
    intro fp ctx _ h
    simpa [textSearchEntries] using h
  | cons x rest ih =>
    rcases x with ⟨name, child⟩
    intro fp ctx IH h
    have IHrest : ∀ name2 child2, (name2, child2) ∈ rest → ∀ (fp2 : FsPath) (ctx2 : TCtx),
        LimitInv m ctx2 →
        LimitInv m (textSearchFolder q engine (some m) cancelled child2 fp2 ctx2) :=
      fun name2 child2 hmem => IH name2 child2 (by simp [hmem])
    simp only [textSearchEntries]
    by_cases hl : (cancelled || ctx.limitHit) = true
    · rw [if_pos hl]
      exact h
    · rw [if_neg hl]
      cases child with
      | dir es2 =>
        exact ih fp _ IHrest (IH name (.dir es2) (by simp) (fp ++ [name]) ctx h)
      | file c =>
        exact ih fp _ IHrest
          (textSearchInFile_inv q engine m hm cancelled c (fp ++ [name]) ctx h)
      | other => exact ih fp _ IHrest h

theorem textSearchFolder_inv (q : TextQuery) (engine : RegexEngine) (m : Nat)
    (hm : 0 < m) (cancelled : Bool) (e : Entry) :
    ∀ (fp : FsPath) (ctx : TCtx), LimitInv m ctx →
      LimitInv m (textSearchFolder q engine (some m) cancelled e fp ctx) := by
  intro fp ctx h
  rw [textSearchFolder.eq_def]
  dsimp only
  by_cases hl : (cancelled || ctx.limitHit) = true
  · rw [if_pos hl]
    exact h
  · rw [if_neg hl]
    cases e with
    | file c => exact h
    | other => exact h
    | dir es =>
      exact textSearchEntries_inv_aux q engine m hm cancelled es fp ctx
        (fun name child hmem fp2 ctx2 h2 =>
          textSearchFolder_inv q engine m hm cancelled child fp2 ctx2 h2)
        h
termination_by sizeOf e
decreasing_by
  have h1 := List.sizeOf_lt_of_mem hmem
  simp only [Prod.mk.sizeOf_spec] at h1
  simp only [Entry.dir.sizeOf_spec]
  omega

theorem textSearchAt_inv (root : Entry) (q : TextQuery) (engine : RegexEngine)
    (m : Nat) (hm : 0 < m) (cancelled : Bool) (folderPath : FsPath) (ctx : TCtx)
    (h : LimitInv m ctx) :
    LimitInv m (textSearchAt root q engine (some m) cancelled folderPath ctx) := by
  unfold textSearchAt
  cases hl : lookupPath root folderPath with
  | none => exact h
  | some e => exact textSearchFolder_inv q engine m hm cancelled e folderPath ctx h

/-- Claim C3: with a positive `maxResults = m`, one invocation of the
content search emits at most `m` progress events, and the returned
`limitHit` is `true` exactly when the emitted-event count reached `m`
(the shared flag is set the moment the count reaches the cap, and once
set, the current file, its remaining lines, and every further file and
folder are skipped, so no further event is ever emitted). -/
theorem textSearch_limit (root : Entry) (q : TextQuery) (engine : RegexEngine)
    (includes : List FsPath) (m : Nat) (cancelled : Bool) (hm : 0 < m) :
    (provideTextSearchResults root q engine includes (some m) cancelled).reports.length ≤ m
    ∧ ((provideTextSearchResults root q engine includes (some m) cancelled).limitHit
        = true ↔
      (provideTextSearchResults root q engine includes (some m) cancelled).reports.length
        = m) := by
  have hfold : ∀ (incs : List FsPath) (ctx : TCtx), LimitInv m ctx →
      LimitInv m (incs.foldl (fun ctx folderPath =>
        if cancelled || ctx.limitHit then ctx
        else textSearchAt root q engine (some m) cancelled folderPath ctx) ctx) := by
    intro incs
    induction incs with
    | nil =>
      intro ctx h
      simpa using h
    | cons x rest ih =>
      intro ctx h
      simp only [List.foldl_cons]
      apply ih
      by_cases hc : (cancelled || ctx.limitHit) = true
      · rw [if_pos hc]
        exact h
      · rw [if_neg hc]
        exact textSearchAt_inv root q engine m hm cancelled x ctx h
  have hinv0 : LimitInv m (⟨false, 0, []⟩ : TCtx) := by
    refine ⟨rfl, ?_, ?_⟩
    · show (0 : Nat) ≤ m
      omega
    · show false = decide (m ≤ 0)
      simp
      omega
  have hctx2 : LimitInv m (if includes.isEmpty then
      textSearchAt root q engine (some m) cancelled []
        (includes.foldl (fun ctx folderPath =>
          if cancelled || ctx.limitHit then ctx
          else textSearchAt root q engine (some m) cancelled folderPath ctx) ⟨false, 0, []⟩)
    else includes.foldl (fun ctx folderPath =>
          if cancelled || ctx.limitHit then ctx
          else textSearchAt root q engine (some m) cancelled folderPath ctx) ⟨false, 0, []⟩) := by
    by_cases hemp : includes.isEmpty = true
    · rw [if_pos hemp]
      exact textSearchAt_inv root q engine m hm cancelled [] _
        (hfold includes _ hinv0)
    · rw [if_neg hemp]
      exact hfold includes _ hinv0
  obtain ⟨h1, h2, h3⟩ := hctx2
  constructor
  · show (provideTextSearchResults root q engine includes (some m) cancelled).reports.length ≤ m
    unfold provideTextSearchResults
    dsimp only
    omega
  · unfold provideTextSearchResults
    dsimp only
    rw [h3]
    constructor
    · intro hd
      have := of_decide_eq_true hd
      omega
    · intro hd
      apply decide_eq_true
      omega

/-- Concrete run of Claim C3: content search for `"x"` over a two-file
store with `maxResults = 1` — the theorem bounds the emitted events by 1
and ties `limitHit` to the count having reached 1. -/
theorem textSearch_limit_witness :
    (provideTextSearchResults
        (Entry.dir [("a", Entry.file (strBytes "x")), ("b", Entry.file (strBytes "x"))])
        ⟨"x", false, true⟩ (fun _ _ => none) [] (some 1) false).reports.length ≤ 1
    ∧ ((provideTextSearchResults
        (Entry.dir [("a", Entry.file (strBytes "x")), ("b", Entry.file (strBytes "x"))])
        ⟨"x", false, true⟩ (fun _ _ => none) [] (some 1) false).limitHit = true ↔
      (provideTextSearchResults
        (Entry.dir [("a", Entry.file (strBytes "x")), ("b", Entry.file (strBytes "x"))])
        ⟨"x", false, true⟩ (fun _ _ => none) [] (some 1) false).reports.length = 1) :=
  textSearch_limit
    (Entry.dir [("a", Entry.file (strBytes "x")), ("b", Entry.file (strBytes "x"))])
    ⟨"x", false, true⟩ (fun _ _ => none) [] 1 false (by decide)

/-! ### Claim C8 -/

/-- Claim C8: when the compiled pattern produces only non-empty,
in-bounds, forward matches on the scanned line (which a real regex engine
does except for zero-length matches), the per-line enumeration loop ends
by `exec` returning null rather than by running out of budget (second
component `true` — the source loop terminates), and the reported matches
are in left-to-right order of strictly increasing start columns.  The
non-emptiness precondition is what makes `lastIndex` strictly increase;
a zero-length match would leave `lastIndex` in place and loop forever. -/
theorem regexLineLoop_nonempty_terminates (engine : RegexEngine) (filePath : FsPath)
    (lineNumber : Nat) (line : String)
    (hval : ∀ li i len, engine line li = some (i, len) →
      li ≤ i ∧ 0 < len ∧ i + len ≤ line.length) :
    ∀ (fuel li : Nat) (ctx : TCtx), line.length + 1 - li < fuel →
      ctx.limitHit = false →
      (regexLineLoop engine none false filePath lineNumber line fuel li ctx).2 = true
      ∧ ∃ new,
          (regexLineLoop engine none false filePath lineNumber line
            fuel li ctx).1.reports = ctx.reports ++ new
          ∧ (∀ rep ∈ new, li ≤ rep.colStart)
          ∧ List.Pairwise (fun r1 r2 => r1.colStart < r2.colStart) new := by
  intro fuel
  induction fuel with
  | zero =>
    intro li ctx hfuel _
    exact absurd hfuel (by omega)
  | succ f ih =>
    intro li ctx hfuel hflag
    simp only [regexLineLoop]
    cases hx : engine line li with
    | none =>
      exact ⟨rfl, [], by simp, by simp, by simp⟩
    | some pr =>
      rcases pr with ⟨i, len⟩
      obtain ⟨hli, hlen, hbound⟩ := hval li i len hx
      dsimp only
      rw [if_neg (by simp [hflag])]
      rw [if_neg (by simp [maxHit])]
      have hfuel2 : line.length + 1 - (i + len) < f := by omega
      obtain ⟨hdone, new2, hrep, hge, hpair⟩ :=
        ih (i + len)
          (TCtx.mk ctx.limitHit (ctx.resultCount + 1)
            (ctx.reports ++
              [SearchReport.mk filePath lineNumber i (i + len) line i (i + len)]))
          hfuel2 (by simpa using hflag)
      refine ⟨hdone,
        SearchReport.mk filePath lineNumber i (i + len) line i (i + len) :: new2,
        ?_, ?_, ?_⟩
      · rw [hrep]
        simp
      · intro rep hmem
        rcases List.mem_cons.mp hmem with hmem | hmem
        · rw [hmem]
          exact hli
        · have := hge rep hmem
          simp only at this ⊢
          omega
      · rw [List.pairwise_cons]
        refine ⟨?_, hpair⟩
        intro rep hmem
        have := hge rep hmem
        simp only at this ⊢
        omega

/-- Concrete run of Claim C8: an engine matching one character at position
0 of the line `"a"` satisfies the preconditions; the loop finishes and
reports strictly increasing starts. -/
theorem regexLineLoop_nonempty_terminates_witness :
    (regexLineLoop (fun _ li => if li = 0 then some (0, 1) else none)
        none false ["f"] 0 "a" 3 0 ⟨false, 0, []⟩).2 = true
    ∧ ∃ new,
        (regexLineLoop (fun _ li => if li = 0 then some (0, 1) else none)
          none false ["f"] 0 "a" 3 0 ⟨false, 0, []⟩).1.reports =
          (⟨false, 0, []⟩ : TCtx).reports ++ new
        ∧ (∀ rep ∈ new, 0 ≤ rep.colStart)
        ∧ List.Pairwise (fun r1 r2 => r1.colStart < r2.colStart) new :=
  regexLineLoop_nonempty_terminates (fun _ li => if li = 0 then some (0, 1) else none)
    ["f"] 0 "a"
    (by
      intro li i len h
      dsimp only at h
      by_cases h0 : li = 0
      · subst h0
        rw [if_pos rfl] at h
        simp only [Option.some.injEq, Prod.mk.injEq] at h
        obtain ⟨h1, h2⟩ := h
        subst h1
        subst h2
        exact ⟨Nat.le.refl, by omega, by decide⟩
      · rw [if_neg h0] at h
        cases h)
    3 0 ⟨false, 0, []⟩ (by decide) rfl

/-! ### Copy semantics, concrete illustration -/

/-- Concrete illustration of the copy semantics: the recursive copy writes
each nested file with a plain truncating write and never re-checks
existence or `overwrite`.  With arbitrary byte contents `c1` (source) and
`c2` (pre-existing nested destination): copying `/s` over `/d` with
`overwrite = true` succeeds and unconditionally replaces `/d/sub/f`'s
content with `c1`, whatever `c2` was (first conjunct — no nested check can
depend on the nested destination's presence or content, since the result
is uniform in `c2`); with `overwrite = false` the one top-level check
rejects the copy (second conjunct; the thrown FileExists is re-translated
by the catch into Unavailable). -/
theorem copy_overwrites_nested (c1 c2 : List Nat) :
    MemFS.copy
        (Entry.dir [("s", Entry.dir [("sub", Entry.dir [("f", Entry.file c1)])]),
          ("d", Entry.dir [("sub", Entry.dir [("f", Entry.file c2)])])])
        ["s"] ["d"] true =
      .ok (Entry.dir [("s", Entry.dir [("sub", Entry.dir [("f", Entry.file c1)])]),
          ("d", Entry.dir [("sub", Entry.dir [("f", Entry.file c1)])])])
    ∧ MemFS.copy
        (Entry.dir [("s", Entry.dir [("sub", Entry.dir [("f", Entry.file c1)])]),
          ("d", Entry.dir [("sub", Entry.dir [("f", Entry.file c2)])])])
        ["s"] ["d"] false = .error .Unavailable := by
  constructor
  · simp [MemFS.copy, copyBody, ensureParentDirectory, fsExists, lookupPath, findEntry,
      entryFuel, entriesFuel, copyDirFuel, copyEntriesFuel, fsReaddir, fsReadFile,
      fsWriteFile, fsMkdir, setEntry, delEntry, toFileSystemError]
  · simp [MemFS.copy, copyBody, ensureParentDirectory, fsExists, lookupPath, findEntry,
      entryFuel, entriesFuel, copyDirFuel, copyEntriesFuel, fsReaddir, fsReadFile,
      fsWriteFile, fsMkdir, setEntry, delEntry, toFileSystemError]

/-! ### Path and frame lemmas for the general copy theorem -/

theorem nilPref (l : FsPath) : [] <+: l :=
  ⟨l, rfl⟩

theorem prefTotal {l1 l2 l3 : FsPath} (h1 : l1 <+: l3) (h2 : l2 <+: l3) :
    l1 <+: l2 ∨ l2 <+: l1 :=
  List.prefix_or_prefix_of_prefix h1 h2

theorem disjP_append {a b : FsPath} (h : DisjP a b) (u v : FsPath) :
    DisjP (a ++ u) (b ++ v) := by
  constructor
  · intro hc
    have h1 : a <+: b ++ v := (List.prefix_append a u).trans hc
    rcases prefTotal h1 (List.prefix_append b v) with h2 | h2
    · exact h.1 h2
    · exact h.2 h2
  · intro hc
    have h1 : b <+: a ++ u := (List.prefix_append b v).trans hc
    rcases prefTotal h1 (List.prefix_append a u) with h2 | h2
    · exact h.2 h2
    · exact h.1 h2

theorem prefSnocCases {q b : FsPath} {n : String} (h : q <+: b ++ [n]) :
    q <+: b ∨ q = b ++ [n] := by
  induction b generalizing q with
  | nil =>
    cases q with
    | nil => exact Or.inl (nilPref [])
    | cons x q2 =>
      obtain ⟨hx, hq2⟩ := List.cons_prefix_cons.mp h
      subst hx
      have : q2 = [] := by
        rcases hq2 with ⟨t, ht⟩
        cases q2 with
        | nil => rfl
        | cons a b => simp at ht
      subst this
      exact Or.inr rfl
  | cons h0 b2 ih =>
    cases q with
    | nil => exact Or.inl (nilPref _)
    | cons x q2 =>
      obtain ⟨hx, hq2⟩ := List.cons_prefix_cons.mp h
      subst hx
      rcases ih hq2 with h2 | h2
      · exact Or.inl (List.cons_prefix_cons.mpr ⟨rfl, h2⟩)
      · subst h2
        exact Or.inr rfl

theorem disjP_of_child {dst q : FsPath} {name : String}
    (h1 : ¬ (dst ++ [name]) <+: q) (h2 : ¬ q <+: dst) : DisjP (dst ++ [name]) q := by
  refine ⟨h1, ?_⟩
  intro hc
  rcases prefSnocCases hc with hc2 | hc2
  · exact h2 hc2
  · exact h1 (hc2 ▸ ⟨[], List.append_nil _⟩)

theorem notAppendConsPref {a u : FsPath} {n : String} : ¬ (a ++ n :: u) <+: a := by
  intro h
  have := h.length_le
  simp at this

theorem dropLastPref (l : FsPath) : l.dropLast <+: l := by
  induction l with
  | nil => exact ⟨[], rfl⟩
  | cons a l2 ih =>
    cases l2 with
    | nil => exact ⟨[a], rfl⟩
    | cons b t => exact List.cons_prefix_cons.mpr ⟨rfl, ih⟩

theorem fsWriteFile_lookup_outside {content : List Nat} {excl : Bool} :
    ∀ (p : FsPath) (e r : Entry) (q : FsPath), fsWriteFile content excl e p = .ok r →
      ¬ p <+: q → ¬ q <+: p → lookupPath r q = lookupPath e q := by
  intro p
  induction p with
  | nil =>
    intro e r q _ hpq _
    exact absurd (nilPref q) hpq
  | cons n rest ih =>
    intro e r q h hpq hqp
    cases e with
    | file c => simp [fsWriteFile] at h
    | other => simp [fsWriteFile] at h
    | dir es =>
      cases q with
      | nil => exact absurd (nilPref _) hqp
      | cons m q2 =>
        cases hfe : findEntry es n with
        | some child =>
          cases hw : fsWriteFile content excl child rest with
          | ok child2 =>
            simp only [fsWriteFile, hfe, hw, Except.ok.injEq] at h
            subst h
            by_cases hnm : n = m
            · subst hnm
              have hpq2 : ¬ rest <+: q2 := fun hc => hpq (List.cons_prefix_cons.mpr ⟨rfl, hc⟩)
              have hqp2 : ¬ q2 <+: rest := fun hc => hqp (List.cons_prefix_cons.mpr ⟨rfl, hc⟩)
              simp only [lookupPath, findEntry_setEntry_self hfe, hfe]
              exact ih child child2 q2 hw hpq2 hqp2
            · simp [lookupPath, findEntry_setEntry_ne (fun hc => hnm hc.symm)]
          | error z => simp [fsWriteFile, hfe, hw] at h
        | none =>
          cases rest with
          | nil =>
            simp only [fsWriteFile, hfe, Except.ok.injEq] at h
            subst h
            by_cases hnm : n = m
            · subst hnm
              exact absurd (List.cons_prefix_cons.mpr ⟨rfl, nilPref q2⟩) hpq
            · simp [lookupPath, findEntry_append_ne (fun hc => hnm hc.symm)]
          | cons a b => simp [fsWriteFile, hfe] at h

theorem fsMkdir_fresh_lookup :
    ∀ (rest : FsPath) (c : Entry) (q : FsPath), fsMkdir (.dir []) rest = .ok c →
      ¬ rest <+: q → ¬ q <+: rest → lookupPath c q = none := by
  intro rest
  induction rest with
  | nil =>
    intro c q _ hpq _
    exact absurd (nilPref q) hpq
  | cons a rest2 ih =>
    intro c q h hpq hqp
    have hfe : findEntry ([] : List (String × Entry)) a = none := rfl
    cases hmk : fsMkdir (.dir []) rest2 with
    | ok c2 =>
      simp only [fsMkdir, hfe, hmk, Except.ok.injEq, List.nil_append] at h
      subst h
      cases q with
      | nil => exact absurd (nilPref _) hqp
      | cons b q2 =>
        by_cases hab : a = b
        · subst hab
          have hpq2 : ¬ rest2 <+: q2 := fun hc => hpq (List.cons_prefix_cons.mpr ⟨rfl, hc⟩)
          have hqp2 : ¬ q2 <+: rest2 := fun hc => hqp (List.cons_prefix_cons.mpr ⟨rfl, hc⟩)
          simp only [lookupPath, findEntry, beq_self_eq_true, if_true]
          exact ih c2 q2 hmk hpq2 hqp2
        · simp [lookupPath, findEntry, hab]
    | error z => simp [fsMkdir, hfe, hmk] at h

theorem fsMkdir_lookup_outside :
    ∀ (p : FsPath) (e r : Entry) (q : FsPath), fsMkdir e p = .ok r →
      ¬ p <+: q → ¬ q <+: p → lookupPath r q = lookupPath e q := by
  intro p
  induction p with
  | nil =>
    intro e r q _ hpq _
    exact absurd (nilPref q) hpq
  | cons n rest ih =>
    intro e r q h hpq hqp
    cases e with
    | file c => simp [fsMkdir] at h
    | other => simp [fsMkdir] at h
    | dir es =>
      cases q with
      | nil => exact absurd (nilPref _) hqp
      | cons m q2 =>
        cases hfe : findEntry es n with
        | some child =>
          cases hmk : fsMkdir child rest with
          | ok c2 =>
            simp only [fsMkdir, hfe, hmk, Except.ok.injEq] at h
            subst h
            by_cases hnm : n = m
            · subst hnm
              have hpq2 : ¬ rest <+: q2 := fun hc => hpq (List.cons_prefix_cons.mpr ⟨rfl, hc⟩)
              have hqp2 : ¬ q2 <+: rest := fun hc => hqp (List.cons_prefix_cons.mpr ⟨rfl, hc⟩)
              simp only [lookupPath, findEntry_setEntry_self hfe, hfe]
              exact ih child c2 q2 hmk hpq2 hqp2
            · simp [lookupPath, findEntry_setEntry_ne (fun hc => hnm hc.symm)]
          | error z => simp [fsMkdir, hfe, hmk] at h
        | none =>
          cases hmk : fsMkdir (.dir []) rest with
          | ok c2 =>
            simp only [fsMkdir, hfe, hmk, Except.ok.injEq] at h
            subst h
            by_cases hnm : n = m
            · subst hnm
              have hpq2 : ¬ rest <+: q2 := fun hc => hpq (List.cons_prefix_cons.mpr ⟨rfl, hc⟩)
              have hqp2 : ¬ q2 <+: rest := fun hc => hqp (List.cons_prefix_cons.mpr ⟨rfl, hc⟩)
              simp only [lookupPath, findEntry_append_of_none hfe, hfe]
              exact fsMkdir_fresh_lookup rest c2 q2 hmk hpq2 hqp2
            · simp [lookupPath, findEntry_append_ne (fun hc => hnm hc.symm)]
          | error z => simp [fsMkdir, hfe, hmk] at h

theorem findEntry_mem_names {es : List (String × Entry)} {n : String} {c : Entry}
    (h : findEntry es n = some c) : n ∈ es.map Prod.fst := by
  induction es with
  | nil => simp [findEntry] at h
  | cons p rest ih =>
    rcases p with ⟨k, e⟩
    by_cases hk : k = n
    · subst hk
      simp
    · simp only [findEntry, beq_iff_eq, hk, if_false] at h
      simp [ih h]

theorem findEntry_isSome_of_name_mem {es : List (String × Entry)} {n : String}
    (h : n ∈ es.map Prod.fst) : (findEntry es n).isSome = true := by
  induction es with
  | nil => simp at h
  | cons p rest ih =>
    rcases p with ⟨k, e⟩
    by_cases hk : k = n
    · simp [findEntry, hk]
    · simp only [List.map_cons, List.mem_cons] at h
      rcases h with h | h
      · exact absurd h.symm hk
      · simp [findEntry, hk, ih h]

theorem wfEntries_names_nodup : ∀ {es : List (String × Entry)},
    wfEntries es = true → (es.map Prod.fst).Nodup := by
  intro es
  induction es with
  | nil => simp
  | cons p rest ih =>
    rcases p with ⟨k, e⟩
    intro hwf
    obtain ⟨hnone, _, hrest⟩ := wfEntries_head_and_rest hwf
    simp only [List.map_cons, List.nodup_cons]
    refine ⟨?_, ih hrest⟩
    intro hmem
    rw [findEntry_isSome_of_name_mem hmem] at hnone
    cases hnone

theorem lookupPath_isSome_of_append {root : Entry} {q t : FsPath}
    (h : (lookupPath root (q ++ t)).isSome = true) :
    (lookupPath root q).isSome = true := by
  rw [lookupPath_append] at h
  cases hl : lookupPath root q with
  | none => rw [hl] at h; cases h
  | some e => rfl

theorem disjP_append_left {a b : FsPath} (h : DisjP a b) (u : FsPath) :
    DisjP (a ++ u) b := by
  have h2 := disjP_append h u []
  rwa [List.append_nil] at h2

theorem prefCancel : ∀ {a u v : FsPath}, a ++ u <+: a ++ v → u <+: v := by
  intro a
  induction a with
  | nil => intro u v h; simpa using h
  | cons x a2 ih =>
    intro u v h
    simp only [List.cons_append] at h
    exact ih (List.cons_prefix_cons.mp h).2

theorem appendConsEq (dst rel : FsPath) (name : String) :
    dst ++ [name] ++ rel = dst ++ name :: rel := by
  rw [List.append_assoc, List.singleton_append]

theorem notChildPref {dst rel : FsPath} {name name2 : String}
    (hne : ¬ name2 = name) : ¬ (dst ++ [name2]) <+: (dst ++ name :: rel) := by
  intro hc
  have h2 : [name2] <+: name :: rel := prefCancel hc
  exact hne (List.cons_prefix_cons.mp h2).1

/-- The entry loop of `copyDirectory` with `overwrite = true`: given the
directory-level statement at the same fuel, every file under a listed
source child ends up under the corresponding destination child, and
everything outside the copied children is untouched. -/
theorem copyEntries_general (fuel : Nat)
    (hdir : ∀ (root r : Entry) (src dst : FsPath),
      copyDirFuel fuel root src dst true = .ok r →
      ¬ src <+: dst → ¬ dst <+: src →
      (∀ rel2 es', lookupPath root (src ++ rel2) = some (.dir es') → wfEntries es' = true) →
      ((∀ rel c, lookupPath root (src ++ rel) = some (.file c) →
          lookupPath r (dst ++ rel) = some (.file c)) ∧
        (∀ q, ¬ dst <+: q → ¬ q <+: dst → lookupPath r q = lookupPath root q))) :
    ∀ (names : List String) (root r : Entry) (src dst : FsPath),
      copyEntriesFuel fuel root src dst true names = .ok r →
      ¬ src <+: dst → ¬ dst <+: src →
      (∀ rel2 es', lookupPath root (src ++ rel2) = some (.dir es') → wfEntries es' = true) →
      names.Nodup →
      ((∀ name, name ∈ names → ∀ rel c,
          lookupPath root (src ++ [name] ++ rel) = some (.file c) →
          lookupPath r (dst ++ [name] ++ rel) = some (.file c)) ∧
        (∀ q, (∀ name, name ∈ names → ¬ (dst ++ [name]) <+: q) → ¬ q <+: dst →
          lookupPath r q = lookupPath root q)) := by
  intro names
  induction names with
  | nil =>
    intro root r src dst h _ _ _ _
    simp only [copyEntriesFuel, Except.ok.injEq] at h
    subst h
    refine ⟨?_, ?_⟩
    · intro name hmem
      exact absurd hmem (List.not_mem_nil name)
    · intro q _ _
      rfl
  | cons name rest ih =>
    intro root r src dst h hd1 hd2 hwfs hnodup
    obtain ⟨hname_rest, hnodup_rest⟩ := List.nodup_cons.mp hnodup
    simp only [copyEntriesFuel] at h
    cases hl : lookupPath root (src ++ [name]) with
    | none =>
      rw [hl] at h
      simp at h
    | some e0 =>
      rw [hl] at h
      cases e0 with
      | dir es2 =>
        dsimp only at h
        have hdisj_nd : DisjP (src ++ [name]) (dst ++ [name]) :=
          disjP_append ⟨hd1, hd2⟩ [name] [name]
        cases hcd : copyDirFuel fuel root (src ++ [name]) (dst ++ [name]) true with
        | error err =>
          rw [hcd] at h
          simp at h
        | ok root2 =>
          rw [hcd] at h
          dsimp only at h
          have hwfs_sub : ∀ rel2 es',
              lookupPath root ((src ++ [name]) ++ rel2) = some (.dir es') →
              wfEntries es' = true := by
            intro rel2 es' h2
            rw [List.append_assoc] at h2
            exact hwfs ([name] ++ rel2) es' h2
          have hd := hdir root root2 (src ++ [name]) (dst ++ [name]) hcd
            hdisj_nd.1 hdisj_nd.2 hwfs_sub
          have hframe2 : ∀ u, lookupPath root2 (src ++ u) = lookupPath root (src ++ u) := by
            intro u
            have hdq : DisjP (src ++ u) (dst ++ [name]) := disjP_append ⟨hd1, hd2⟩ u [name]
            exact hd.2 (src ++ u) hdq.2 hdq.1
          have hwfs2 : ∀ rel2 es',
              lookupPath root2 (src ++ rel2) = some (.dir es') → wfEntries es' = true := by
            intro rel2 es' h2
            rw [hframe2 rel2] at h2
            exact hwfs rel2 es' h2
          have hrest := ih root2 r src dst h hd1 hd2 hwfs2 hnodup_rest
          refine ⟨?_, ?_⟩
          · intro name' hmem rel c hrel
            rcases List.mem_cons.mp hmem with hn | hn
            · subst hn
              have h1 : lookupPath root2 (dst ++ [name'] ++ rel) = some (.file c) :=
                hd.1 rel c hrel
              have hq1 : ∀ name'', name'' ∈ rest →
                  ¬ (dst ++ [name'']) <+: (dst ++ [name'] ++ rel) := by
                intro name'' hmem''
                rw [appendConsEq]
                apply notChildPref
                intro he
                exact hname_rest (he ▸ hmem'')
              have hq2 : ¬ (dst ++ [name'] ++ rel) <+: dst := by
                rw [appendConsEq]
                exact notAppendConsPref
              rw [hrest.2 (dst ++ [name'] ++ rel) hq1 hq2]
              exact h1
            · apply hrest.1 name' hn rel c
              rw [List.append_assoc, hframe2 ([name'] ++ rel), ← List.append_assoc]
              exact hrel
          · intro q hq1 hq2
            have hq1' : ∀ name'', name'' ∈ rest → ¬ (dst ++ [name'']) <+: q :=
              fun n'' hm => hq1 n'' (List.mem_cons_of_mem _ hm)
            rw [hrest.2 q hq1' hq2]
            have hd0 : DisjP (dst ++ [name]) q :=
              disjP_of_child (hq1 name (List.mem_cons_self _ _)) hq2
            exact hd.2 q hd0.1 hd0.2
      | file data =>
        dsimp only at h
        have hrf : fsReadFile root (src ++ [name]) = .ok data := by
          simp [fsReadFile, hl]
        rw [hrf] at h
        dsimp only at h
        cases hw : fsWriteFile data false root (dst ++ [name]) with
        | error z =>
          rw [hw] at h
          simp at h
        | ok root2 =>
          rw [hw] at h
          dsimp only at h
          have hframe2 : ∀ u, lookupPath root2 (src ++ u) = lookupPath root (src ++ u) := by
            intro u
            have hdq : DisjP (src ++ u) (dst ++ [name]) := disjP_append ⟨hd1, hd2⟩ u [name]
            exact fsWriteFile_lookup_outside (dst ++ [name]) root root2 (src ++ u) hw hdq.2 hdq.1
          have hwfs2 : ∀ rel2 es',
              lookupPath root2 (src ++ rel2) = some (.dir es') → wfEntries es' = true := by
            intro rel2 es' h2
            rw [hframe2 rel2] at h2
            exact hwfs rel2 es' h2
          have hrest := ih root2 r src dst h hd1 hd2 hwfs2 hnodup_rest
          refine ⟨?_, ?_⟩
          · intro name' hmem rel c hrel
            rcases List.mem_cons.mp hmem with hn | hn
            · subst hn
              cases rel with
              | cons x t =>
                exfalso
                rw [lookupPath_append (src ++ [name']) (x :: t) root, hl] at hrel
                simp [lookupPath] at hrel
              | nil =>
                rw [List.append_nil] at hrel
                rw [hl] at hrel
                simp only [Option.some.injEq, Entry.file.injEq] at hrel
                subst hrel
                rw [List.append_nil]
                have h1 : lookupPath root2 (dst ++ [name']) = some (.file data) :=
                  lookupPath_fsWriteFile (dst ++ [name']) root root2 hw
                have hq1 : ∀ name'', name'' ∈ rest →
                    ¬ (dst ++ [name'']) <+: (dst ++ [name']) := by
                  intro name'' hmem''
                  apply notChildPref
                  intro he
                  exact hname_rest (he ▸ hmem'')
                have hq2 : ¬ (dst ++ [name']) <+: dst := notAppendConsPref
                rw [hrest.2 (dst ++ [name']) hq1 hq2]
                exact h1
            · apply hrest.1 name' hn rel c
              rw [List.append_assoc, hframe2 ([name'] ++ rel), ← List.append_assoc]
              exact hrel
          · intro q hq1 hq2
            have hq1' : ∀ name'', name'' ∈ rest → ¬ (dst ++ [name'']) <+: q :=
              fun n'' hm => hq1 n'' (List.mem_cons_of_mem _ hm)
            rw [hrest.2 q hq1' hq2]
            have hd0 : DisjP (dst ++ [name]) q :=
              disjP_of_child (hq1 name (List.mem_cons_self _ _)) hq2
            exact fsWriteFile_lookup_outside (dst ++ [name]) root root2 q hw hd0.1 hd0.2
      | other =>
        dsimp only at h
        have hrf : fsReadFile root (src ++ [name]) = .error .EOTHER := by
          simp [fsReadFile, hl]
        rw [hrf] at h
        simp at h

/-- `copyDirectory` with `overwrite = true`, for any fuel: on success,
every file anywhere under the source directory is placed (overwriting
whatever was there) at the corresponding destination path, and every path
outside the destination subtree is untouched. -/
theorem copyDir_general :
    ∀ (fuel : Nat) (root r : Entry) (src dst : FsPath),
      copyDirFuel fuel root src dst true = .ok r →
      ¬ src <+: dst → ¬ dst <+: src →
      (∀ rel2 es', lookupPath root (src ++ rel2) = some (.dir es') → wfEntries es' = true) →
      ((∀ rel c, lookupPath root (src ++ rel) = some (.file c) →
          lookupPath r (dst ++ rel) = some (.file c)) ∧
        (∀ q, ¬ dst <+: q → ¬ q <+: dst → lookupPath r q = lookupPath root q)) := by
  intro fuel
  induction fuel with
  | zero =>
    intro root r src dst h _ _ _
    simp [copyDirFuel] at h
  | succ f ih =>
    intro root r src dst h hd1 hd2 hwfs
    have cont : ∀ (root1 : Entry) (names : List String),
        (∀ q, ¬ dst <+: q → ¬ q <+: dst → lookupPath root1 q = lookupPath root q) →
        fsReaddir root1 src = .ok names →
        copyEntriesFuel f root1 src dst true names = .ok r →
        ((∀ rel c, lookupPath root (src ++ rel) = some (.file c) →
            lookupPath r (dst ++ rel) = some (.file c)) ∧
          (∀ q, ¬ dst <+: q → ¬ q <+: dst → lookupPath r q = lookupPath root q)) := by
      intro root1 names hframe1 hrd hce
      cases hl1 : lookupPath root1 src with
      | none => simp [fsReaddir, hl1] at hrd
      | some e0 =>
        cases e0 with
        | file c0 => simp [fsReaddir, hl1] at hrd
        | other => simp [fsReaddir, hl1] at hrd
        | dir es =>
          have hnames : names = es.map Prod.fst := by
            simp only [fsReaddir, hl1, Except.ok.injEq] at hrd
            exact hrd.symm
          have hl1root : lookupPath root src = some (.dir es) := by
            rw [← hframe1 src hd2 hd1]
            exact hl1
          have hwfes : wfEntries es = true := by
            apply hwfs []
            rwa [List.append_nil]
          have hnodup : names.Nodup := by
            rw [hnames]
            exact wfEntries_names_nodup hwfes
          have hwfs1 : ∀ rel2 es',
              lookupPath root1 (src ++ rel2) = some (.dir es') → wfEntries es' = true := by
            intro rel2 es' h2
            have hdq : DisjP (src ++ rel2) dst := disjP_append_left ⟨hd1, hd2⟩ rel2
            rw [hframe1 (src ++ rel2) hdq.2 hdq.1] at h2
            exact hwfs rel2 es' h2
          have hent := copyEntries_general f ih names root1 r src dst hce hd1 hd2 hwfs1 hnodup
          refine ⟨?_, ?_⟩
          · intro rel c hrel
            have hdq : DisjP (src ++ rel) dst := disjP_append_left ⟨hd1, hd2⟩ rel
            have hrel1 : lookupPath root1 (src ++ rel) = some (.file c) := by
              rw [hframe1 (src ++ rel) hdq.2 hdq.1]
              exact hrel
            cases rel with
            | nil =>
              rw [List.append_nil] at hrel1
              rw [hl1] at hrel1
              simp at hrel1
            | cons name' rel2 =>
              have hx : lookupPath (Entry.dir es) (name' :: rel2) = some (.file c) := by
                have h3 := hrel1
                rw [lookupPath_append src (name' :: rel2) root1, hl1] at h3
                exact h3
              cases hfe : findEntry es name' with
              | none => simp [lookupPath, hfe] at hx
              | some child =>
                have hmem : name' ∈ names := by
                  rw [hnames]
                  exact findEntry_mem_names hfe
                rw [← appendConsEq dst rel2 name']
                apply hent.1 name' hmem rel2 c
                rw [appendConsEq src rel2 name']
                exact hrel1
          · intro q hq1 hq2
            have hq1' : ∀ name'', name'' ∈ names → ¬ (dst ++ [name'']) <+: q := by
              intro name'' _ hc
              exact hq1 ((List.prefix_append dst [name'']).trans hc)
            rw [hent.2 q hq1' hq2]
            exact hframe1 q hq1 hq2
    simp only [copyDirFuel] at h
    by_cases hex : fsExists root dst = true
    · rw [if_pos hex] at h
      dsimp only at h
      cases hrd : fsReaddir root src with
      | error z =>
        rw [hrd] at h
        simp at h
      | ok names =>
        rw [hrd] at h
        dsimp only at h
        exact cont root names (fun q _ _ => rfl) hrd h
    · rw [if_neg hex] at h
      cases hmk : fsMkdir root dst with
      | error z =>
        rw [hmk] at h
        simp at h
      | ok root1 =>
        rw [hmk] at h
        dsimp only at h
        cases hrd : fsReaddir root1 src with
        | error z =>
          rw [hrd] at h
          simp at h
        | ok names =>
          rw [hrd] at h
          dsimp only at h
          refine cont root1 names ?_ hrd h
          intro q hq1 hq2
          exact fsMkdir_lookup_outside dst root root1 q hmk hq1 hq2

/-! ### Claim C6 -/

/-- Claim C6: in `copy(sourceId, destId, { overwrite })` of a directory the
`overwrite` flag is consulted only once, at the top level, before the
recursion begins.  First conjunct: for a well-formed store, once a copy
with `overwrite = true` succeeds, EVERY nested file inside the source tree
(at any relative path `rel`) ends up at the corresponding destination path
with exactly the source's bytes — regardless of what the destination
subtree held before, i.e. with no per-file existence or overwrite
re-check.  Second conjunct: the one place the flag is consulted is the
top-level pre-check — with `overwrite = false`, ANY call whose destination
exists is rejected before any recursion (surfacing as `Unavailable`,
because the internally thrown `FileExists` is re-translated by the
`catch`). -/
theorem copy_overwrite_consulted_top_level_only (root r : Entry) (src dst rel : FsPath)
    (c : List Nat)
    (hwf : wfEntry root = true)
    (hd1 : ¬ src <+: dst) (hd2 : ¬ dst <+: src)
    (hsrc : lookupPath root (src ++ rel) = some (.file c))
    (hok : MemFS.copy root src dst true = .ok r) :
    lookupPath r (dst ++ rel) = some (.file c) ∧
    (∀ (root2 : Entry) (src2 dst2 : FsPath),
      fsExists root2 dst2 = true → MemFS.copy root2 src2 dst2 false = .error .Unavailable) := by
  refine ⟨?_, ?_⟩
  · have hsrcex : fsExists root src = true := by
      refine @lookupPath_isSome_of_append root src rel ?_
      rw [hsrc]
      rfl
    unfold MemFS.copy at hok
    cases hcb : copyBody root src dst true with
    | error e =>
      rw [hcb] at hok
      cases e <;> simp at hok
    | ok r2 =>
      rw [hcb] at hok
      dsimp only at hok
      simp only [Except.ok.injEq] at hok
      rw [hok] at hcb
      simp only [copyBody, hsrcex, Bool.not_true, Bool.and_false, Bool.false_eq_true,
        if_false] at hcb
      cases hep : ensureParentDirectory root dst with
      | error z =>
        rw [hep] at hcb
        simp at hcb
      | ok root1 =>
        rw [hep] at hcb
        dsimp only at hcb
        have hepframe : ∀ u : FsPath,
            lookupPath root1 (src ++ u) = lookupPath root (src ++ u) := by
          intro u
          cases hdst : dst with
          | nil =>
            rw [hdst] at hep
            simp only [ensureParentDirectory, Except.ok.injEq] at hep
            rw [hep]
          | cons d ds =>
            rw [hdst] at hep
            simp only [ensureParentDirectory] at hep
            by_cases hpx : fsExists root ((d :: ds).dropLast) = true
            · rw [if_pos hpx] at hep
              simp only [Except.ok.injEq] at hep
              rw [hep]
            · rw [if_neg hpx] at hep
              have c2 : ¬ (src ++ u) <+: ((d :: ds).dropLast) := by
                intro hc
                apply hd1
                rw [hdst]
                exact ((List.prefix_append src u).trans hc).trans (dropLastPref (d :: ds))
              have c1 : ¬ ((d :: ds).dropLast) <+: (src ++ u) := by
                intro hc
                rcases prefTotal hc (List.prefix_append src u) with h2 | h2
                · obtain ⟨t, ht⟩ := h2
                  apply hpx
                  refine @lookupPath_isSome_of_append root ((d :: ds).dropLast) t ?_
                  rw [ht]
                  exact hsrcex
                · apply hd1
                  rw [hdst]
                  exact h2.trans (dropLastPref (d :: ds))
              exact fsMkdir_lookup_outside ((d :: ds).dropLast) root root1 (src ++ u) hep c1 c2
        have hsrc1 : lookupPath root1 (src ++ rel) = some (.file c) := by
          rw [hepframe rel]
          exact hsrc
        have hwfs1 : ∀ rel2 es',
            lookupPath root1 (src ++ rel2) = some (.dir es') → wfEntries es' = true := by
          intro rel2 es' h2
          rw [hepframe rel2] at h2
          have h3 := wf_lookupPath (src ++ rel2) root (Entry.dir es') hwf h2
          simpa [wfEntry] using h3
        cases hl1 : lookupPath root1 src with
        | none =>
          rw [hl1] at hcb
          simp at hcb
        | some e0 =>
          rw [hl1] at hcb
          cases e0 with
          | dir es =>
            dsimp only at hcb
            have hcd := copyDir_general (entryFuel root1) root1 r src dst hcb hd1 hd2 hwfs1
            exact hcd.1 rel c hsrc1
          | file d0 =>
            dsimp only at hcb
            cases rel with
            | cons x t =>
              exfalso
              have h3 := hsrc1
              rw [lookupPath_append src (x :: t) root1, hl1] at h3
              simp [lookupPath] at h3
            | nil =>
              rw [List.append_nil] at hsrc1
              rw [hl1] at hsrc1
              simp only [Option.some.injEq, Entry.file.injEq] at hsrc1
              subst hsrc1
              have hrf : fsReadFile root1 src = .ok d0 := by
                simp [fsReadFile, hl1]
              rw [hrf] at hcb
              dsimp only at hcb
              cases hw : fsWriteFile d0 false root1 dst with
              | error z =>
                rw [hw] at hcb
                simp at hcb
              | ok r2 =>
                rw [hw] at hcb
                simp only [Except.ok.injEq] at hcb
                subst hcb
                rw [List.append_nil]
                exact lookupPath_fsWriteFile dst root1 r2 hw
          | other =>
            dsimp only at hcb
            have hrf : fsReadFile root1 src = .error .EOTHER := by
              simp [fsReadFile, hl1]
            rw [hrf] at hcb
            simp at hcb
  · intro root2 src2 dst2 hex
    by_cases hs : fsExists root2 src2 = true
    · simp [MemFS.copy, copyBody, hs, hex]
    · simp [MemFS.copy, copyBody, hs, hex]

theorem copy_overwrite_consulted_top_level_only_witness :
    lookupPath
        (Entry.dir [("s", Entry.dir [("sub", Entry.dir [("f", Entry.file [1])])]),
          ("d", Entry.dir [("sub", Entry.dir [("f", Entry.file [1])])])])
        (["d"] ++ ["sub", "f"]) = some (Entry.file [1]) ∧
    (∀ (root2 : Entry) (src2 dst2 : FsPath),
      fsExists root2 dst2 = true → MemFS.copy root2 src2 dst2 false = .error .Unavailable) :=
  copy_overwrite_consulted_top_level_only
    (Entry.dir [("s", Entry.dir [("sub", Entry.dir [("f", Entry.file [1])])]),
      ("d", Entry.dir [("sub", Entry.dir [("f", Entry.file [2])])])])
    (Entry.dir [("s", Entry.dir [("sub", Entry.dir [("f", Entry.file [1])])]),
      ("d", Entry.dir [("sub", Entry.dir [("f", Entry.file [1])])])])
    ["s"] ["d"] ["sub", "f"] [1]
    (by decide) (by decide) (by decide) (by rfl)
    (by simp [MemFS.copy, copyBody, ensureParentDirectory, fsExists, lookupPath, findEntry,
      entryFuel, entriesFuel, copyDirFuel, copyEntriesFuel, fsReaddir, fsReadFile,
      fsWriteFile, fsMkdir, setEntry, delEntry, toFileSystemError])

/-! ### Claim C2, general single-directory bound -/

theorem maxHit_lt_false {m k : Nat} (h : k < m) : maxHit (some m) k = false := by
  have h2 : decide (m ≤ k) = false := decide_eq_false (by omega)
  simp [maxHit, h2]

theorem findEntry_some_mem : ∀ {es : List (String × Entry)} {n : String} {c : Entry},
    findEntry es n = some c → (n, c) ∈ es := by
  intro es
  induction es with
  | nil => intro n c h; simp [findEntry] at h
  | cons p rest ih =>
    rcases p with ⟨k, e⟩
    intro n c h
    by_cases hk : k = n
    · subst hk
      simp only [findEntry, beq_self_eq_true, if_true, Option.some.injEq] at h
      subst h
      exact List.mem_cons_self _ _
    · simp only [findEntry, beq_iff_eq, hk, if_false] at h
      exact List.mem_cons_of_mem _ (ih h)

theorem lookupPath_file_cons (c : List Nat) (x : String) (xs : FsPath) :
    lookupPath (Entry.file c) (x :: xs) = none :=
  rfl

theorem lookupPath_file_append {c : List Nat} {e : Entry} {q : FsPath} {nm : String}
    (h : lookupPath (Entry.file c) (q ++ [nm]) = some e) : False := by
  cases hq : q ++ [nm] with
  | nil => exact absurd hq (by simp)
  | cons b bs =>
    rw [hq, lookupPath_file_cons] at h
    cases h

theorem fileSearchEntries_nomatch_aux (pl : String) (mr : Option Nat) (cancelled : Bool)
    (es0 : List (String × Entry))
    (IH : ∀ name child, (name, child) ∈ es0 → ∀ (fp2 : FsPath) (results2 : List FsPath),
      fileSearchFolder pl mr cancelled child fp2 results2 = results2) :
    ∀ es : List (String × Entry), (∀ x ∈ es, x ∈ es0) →
      (∀ name c, (name, Entry.file c) ∈ es → fileNameMatches name pl = false) →
      ∀ (fp : FsPath) (results : List FsPath),
        fileSearchEntries pl mr cancelled es fp results = results := by
  intro es
  induction es with
  | nil =>
    intro _ _ fp results
    simp [fileSearchEntries]
  | cons x rest ih =>
    rcases x with ⟨name, child⟩
    intro hsub hfile fp results
    have hmem0 : (name, child) ∈ es0 := hsub (name, child) (by simp)
    have hsubrest : ∀ x ∈ rest, x ∈ es0 := fun x hx => hsub x (by simp [hx])
    have hfilerest : ∀ name2 c, (name2, Entry.file c) ∈ rest →
        fileNameMatches name2 pl = false :=
      fun name2 c hm2 => hfile name2 c (by simp [hm2])
    by_cases hc : cancelled = true
    · subst hc
      simp [fileSearchEntries]
    · have hc2 : cancelled = false := by simpa using hc
      subst hc2
      cases child with
      | dir es2 =>
        simp only [fileSearchEntries, Bool.false_eq_true, if_false]
        by_cases hhit : maxHit mr results.length = true
        · rw [if_pos hhit]
        · rw [if_neg hhit]
          rw [IH name (.dir es2) hmem0 (fp ++ [name]) results]
          exact ih hsubrest hfilerest fp results
      | file c =>
        simp only [fileSearchEntries, Bool.false_eq_true, if_false]
        rw [hfile name c (by simp)]
        simp only [Bool.false_eq_true, if_false]
        exact ih hsubrest hfilerest fp results
      | other =>
        simp only [fileSearchEntries, Bool.false_eq_true, if_false]
        exact ih hsubrest hfilerest fp results

/-- A subtree containing no file whose name matches the (lower-cased)
pattern contributes nothing: its `searchInFolder` call returns the results
list unchanged. -/
theorem fileSearchFolder_nomatch (pl : String) (mr : Option Nat) (cancelled : Bool)
    (e : Entry) :
    ∀ (fp : FsPath) (results : List FsPath), wfEntry e = true →
      (∀ rel nm c, lookupPath e (rel ++ [nm]) = some (Entry.file c) →
        fileNameMatches nm pl = false) →
      fileSearchFolder pl mr cancelled e fp results = results := by
  intro fp results hwf hnm
  by_cases hc : cancelled = true
  · subst hc
    simp [fileSearchFolder.eq_def]
  · have hc2 : cancelled = false := by simpa using hc
    subst hc2
    cases e with
    | file c => simp [fileSearchFolder]
    | other => simp [fileSearchFolder]
    | dir es =>
      simp only [fileSearchFolder, Bool.false_eq_true, if_false]
      have hwfes : wfEntries es = true := by simpa [wfEntry] using hwf
      refine fileSearchEntries_nomatch_aux pl mr false es ?_ es (fun x hx => hx) ?_ fp results
      · intro name child hmem fp2 results2
        have hlk : findEntry es name = some child := (wf_findEntry_of_mem hwfes hmem).1
        refine fileSearchFolder_nomatch pl mr false child fp2 results2
          (wf_findEntry_of_mem hwfes hmem).2 ?_
        intro rel nm c hrel
        apply hnm (name :: rel) nm c
        rw [List.cons_append]
        simp only [lookupPath, hlk]
        exact hrel
      · intro name c hmem
        have hlk : findEntry es name = some (.file c) := (wf_findEntry_of_mem hwfes hmem).1
        apply hnm [] name c
        rw [List.nil_append]
        simp only [lookupPath, hlk]
termination_by sizeOf e
decreasing_by
  have h1 := List.sizeOf_lt_of_mem hmem
  simp only [Prod.mk.sizeOf_spec] at h1
  have he2 : e = Entry.dir es := by assumption
  rw [he2, Entry.dir.sizeOf_spec]
  omega

theorem fileSearchEntries_nomatch (pl : String) (mr : Option Nat) (cancelled : Bool)
    (es : List (String × Entry))
    (hwf : ∀ name child, (name, child) ∈ es → wfEntry child = true)
    (hsubnm : ∀ name child, (name, child) ∈ es →
      ∀ rel nm c, lookupPath child (rel ++ [nm]) = some (Entry.file c) →
        fileNameMatches nm pl = false)
    (hfile : ∀ name c, (name, Entry.file c) ∈ es → fileNameMatches name pl = false) :
    ∀ (fp : FsPath) (results : List FsPath),
      fileSearchEntries pl mr cancelled es fp results = results := by
  intro fp results
  refine fileSearchEntries_nomatch_aux pl mr cancelled es ?_ es (fun x hx => hx) hfile fp results
  intro name child hmem fp2 results2
  exact fileSearchFolder_nomatch pl mr cancelled child fp2 results2 (hwf name child hmem)
    (hsubnm name child hmem)

/-- The entry loop, when every matching file of the whole walk sits
directly in the single directory `D`: starting below the cap, the results
list never exceeds it.  The localisation hypotheses say: a matching file
anywhere under the child at `name` forces its directory to be `D`, and a
matching file directly in this folder forces this folder to be `D`. -/
theorem fileSearchEntries_single_aux (pl : String) (m : Nat) (cancelled : Bool)
    (D : FsPath) (hm : 0 < m) (es0 : List (String × Entry))
    (IH : ∀ name child, (name, child) ∈ es0 → ∀ (fp2 : FsPath) (results2 : List FsPath),
      wfEntry child = true →
      (∀ rel nm c, lookupPath child (rel ++ [nm]) = some (Entry.file c) →
        fileNameMatches nm pl = true → fp2 ++ rel = D) →
      results2.length < m →
      (fileSearchFolder pl (some m) cancelled child fp2 results2).length ≤ m) :
    ∀ es : List (String × Entry), (∀ x ∈ es, x ∈ es0) → wfEntries es = true →
      ∀ (fp : FsPath),
      (∀ name child rel nm c, (name, child) ∈ es →
        lookupPath child (rel ++ [nm]) = some (Entry.file c) →
        fileNameMatches nm pl = true → fp ++ name :: rel = D) →
      (∀ name c, (name, Entry.file c) ∈ es → fileNameMatches name pl = true → fp = D) →
      ∀ (results : List FsPath), results.length < m →
      (fileSearchEntries pl (some m) cancelled es fp results).length ≤ m := by
  intro es
  induction es with
  | nil =>
    intro _ _ fp _ _ results hlt
    simp only [fileSearchEntries]
    omega
  | cons x rest ihes =>
    rcases x with ⟨name, child⟩
    intro hsub hwfes fp hloc hfile results hlt
    obtain ⟨hfe_rest, hwfchild, hwfrest⟩ := wfEntries_head_and_rest hwfes
    have hmem0 : (name, child) ∈ es0 := hsub (name, child) (by simp)
    have hsubrest : ∀ x ∈ rest, x ∈ es0 := fun x hx => hsub x (by simp [hx])
    have hlocrest : ∀ name2 child2 rel nm c, (name2, child2) ∈ rest →
        lookupPath child2 (rel ++ [nm]) = some (Entry.file c) →
        fileNameMatches nm pl = true → fp ++ name2 :: rel = D :=
      fun name2 child2 rel nm c hm2 => hloc name2 child2 rel nm c (by simp [hm2])
    have hfilerest : ∀ name2 c, (name2, Entry.file c) ∈ rest →
        fileNameMatches name2 pl = true → fp = D :=
      fun name2 c hm2 => hfile name2 c (by simp [hm2])
    by_cases hc : cancelled = true
    · subst hc
      simp only [fileSearchEntries, if_true]
      omega
    · have hc2 : cancelled = false := by simpa using hc
      subst hc2
      cases child with
      | other =>
        simp only [fileSearchEntries, Bool.false_eq_true, if_false]
        exact ihes hsubrest hwfrest fp hlocrest hfilerest results hlt
      | file c =>
        simp only [fileSearchEntries, Bool.false_eq_true, if_false]
        by_cases hmatch : fileNameMatches name pl = true
        · rw [if_pos hmatch]
          by_cases hhit : maxHit (some m) (results ++ [fp ++ [name]]).length = true
          · rw [if_pos hhit]
            simp only [List.length_append, List.length_cons, List.length_nil]
            omega
          · rw [if_neg hhit]
            have hlt2 := maxHit_false_lt hm ((Bool.not_eq_true _).mp hhit)
            exact ihes hsubrest hwfrest fp hlocrest hfilerest _ hlt2
        · rw [if_neg hmatch]
          exact ihes hsubrest hwfrest fp hlocrest hfilerest results hlt
      | dir es2 =>
        simp only [fileSearchEntries, Bool.false_eq_true, if_false]
        rw [maxHit_lt_false hlt]
        simp only [Bool.false_eq_true, if_false]
        by_cases hM : ∃ rel nm cc,
            lookupPath (Entry.dir es2) (rel ++ [nm]) = some (Entry.file cc)
            ∧ fileNameMatches nm pl = true
        · obtain ⟨rel0, nm0, cc0, hlk0, hmt0⟩ := hM
          have hD : fp ++ name :: rel0 = D :=
            hloc name (Entry.dir es2) rel0 nm0 cc0 (by simp) hlk0 hmt0
          have hinner : (fileSearchFolder pl (some m) false (Entry.dir es2)
              (fp ++ [name]) results).length ≤ m := by
            refine IH name (Entry.dir es2) hmem0 (fp ++ [name]) results hwfchild ?_ hlt
            intro rel nm c hrel hmt
            rw [appendConsEq]
            exact hloc name (Entry.dir es2) rel nm c (by simp) hrel hmt
          have hA : ∀ name2 child2, (name2, child2) ∈ rest → wfEntry child2 = true :=
            fun name2 child2 hm2 => (wf_findEntry_of_mem hwfrest hm2).2
          have hB : ∀ name2 child2, (name2, child2) ∈ rest →
              ∀ rel nm c, lookupPath child2 (rel ++ [nm]) = some (Entry.file c) →
              fileNameMatches nm pl = false := by
            intro name2 child2 hm2 rel nm c hrel
            cases hb : fileNameMatches nm pl with
            | false => rfl
            | true =>
              exfalso
              have h2 := hlocrest name2 child2 rel nm c hm2 hrel hb
              have h3 : name2 :: rel = name :: rel0 :=
                List.append_cancel_left (h2.trans hD.symm)
              have h4 : name2 = name := by
                injection h3
              subst h4
              rw [findEntry_isSome_of_mem hm2] at hfe_rest
              cases hfe_rest
          have hC : ∀ name2 c, (name2, Entry.file c) ∈ rest →
              fileNameMatches name2 pl = false := by
            intro name2 c hm2
            cases hb : fileNameMatches name2 pl with
            | false => rfl
            | true =>
              exfalso
              have h2 := hfilerest name2 c hm2 hb
              have h3 : fp ++ name :: rel0 = fp := hD.trans h2.symm
              have h4 := congrArg List.length h3
              simp only [List.length_append, List.length_cons] at h4
              omega
          rw [fileSearchEntries_nomatch pl (some m) false rest hA hB hC fp]
          exact hinner
        · push_neg at hM
          have heq : fileSearchFolder pl (some m) false (Entry.dir es2)
              (fp ++ [name]) results = results := by
            refine fileSearchFolder_nomatch pl (some m) false (Entry.dir es2) (fp ++ [name])
              results hwfchild ?_
            intro rel nm c hrel
            exact (Bool.not_eq_true _).mp (hM rel nm c hrel)
          rw [heq]
          exact ihes hsubrest hwfrest fp hlocrest hfilerest results hlt

/-- `searchInFolder`, when every matching file of the whole walk sits
directly in the single directory `D`: starting below the cap, the results
list never exceeds it. -/
theorem fileSearchFolder_single (pl : String) (m : Nat) (cancelled : Bool) (D : FsPath)
    (hm : 0 < m) (e : Entry) :
    ∀ (fp : FsPath) (results : List FsPath), wfEntry e = true →
      (∀ rel nm c, lookupPath e (rel ++ [nm]) = some (Entry.file c) →
        fileNameMatches nm pl = true → fp ++ rel = D) →
      results.length < m →
      (fileSearchFolder pl (some m) cancelled e fp results).length ≤ m := by
  intro fp results hwf hloc hlt
  by_cases hc : cancelled = true
  · subst hc
    simp [fileSearchFolder.eq_def]
    omega
  · have hc2 : cancelled = false := by simpa using hc
    subst hc2
    cases e with
    | file c =>
      simp [fileSearchFolder]
      omega
    | other =>
      simp [fileSearchFolder]
      omega
    | dir es =>
      simp only [fileSearchFolder, Bool.false_eq_true, if_false]
      have hwfes : wfEntries es = true := by simpa [wfEntry] using hwf
      refine fileSearchEntries_single_aux pl m false D hm es ?_ es (fun x hx => hx) hwfes
        fp ?_ ?_ results hlt
      · intro name child hmem fp2 results2 hwfc hloc2 hlt2
        exact fileSearchFolder_single pl m false D hm child fp2 results2 hwfc hloc2 hlt2
      · intro name child rel nm c hmem hrel hmt
        have hlk : findEntry es name = some child := (wf_findEntry_of_mem hwfes hmem).1
        apply hloc (name :: rel) nm c ?_ hmt
        rw [List.cons_append]
        simp only [lookupPath, hlk]
        exact hrel
      · intro name c hmem hmt
        have hlk : findEntry es name = some (.file c) := (wf_findEntry_of_mem hwfes hmem).1
        have h2 := hloc [] name c ?_ hmt
        · simpa using h2
        · rw [List.nil_append]
          simp only [lookupPath, hlk]
termination_by sizeOf e
decreasing_by
  have h1 := List.sizeOf_lt_of_mem hmem
  simp only [Prod.mk.sizeOf_spec] at h1
  have he2 : e = Entry.dir es := by assumption
  rw [he2, Entry.dir.sizeOf_spec]
  omega

/-- Claim C2, amended: the count is checked before each directory descent
and after each append, but those checks exit only the current folder call;
an ancestor folder resumes with its remaining entries and can append
further matches without a pre-push check, so the result list can exceed
`maxResults` (see the counterexample).  For the plain whole-store walk
(empty include list) over any well-formed store, whenever every file whose
name matches the pattern sits directly in one single directory `D`, the
bound does hold: all appends happen in `D`'s folder call, whose post-append
check stops them at `maxResults`, and every other folder call appends
nothing — in particular `maxResults = 1` against 3 matching sibling files
returns exactly 1 result. -/
theorem fileSearch_single_dir_bound (root : Entry) (pattern : String) (m : Nat)
    (D : FsPath) (cancelled : Bool) (hm : 0 < m) (hwf : wfEntry root = true)
    (hloc : ∀ (p : FsPath) (name : String) (c : List Nat),
      lookupPath root (p ++ [name]) = some (Entry.file c) →
      fileNameMatches name (strLower pattern) = true → p = D) :
    (provideFileSearchResults root pattern [] (some m) cancelled).length ≤ m
    ∧ provideFileSearchResults
        (Entry.dir [("xa", Entry.file []), ("ya", Entry.file []), ("za", Entry.file [])])
        "a" [] (some 1) false = [["xa"]] := by
  constructor
  · simp only [provideFileSearchResults, List.foldl_nil, List.isEmpty_nil, if_true,
      fileSearchAt, lookupPath]
    refine fileSearchFolder_single (strLower pattern) m cancelled D hm root [] [] hwf ?_
      (by simpa using hm)
    intro rel nm c hrel hmt
    rw [List.nil_append]
    exact hloc rel nm c hrel hmt
  · rfl

/-- Concrete run of the amended Claim C2: a store with two matching root
files and a subdirectory holding a non-matching file — the matching files
all sit in the root directory, and the walk stays within `maxResults = 2`;
plus the 3-matching-siblings instance returning exactly one result. -/
theorem fileSearch_single_dir_bound_witness :
    (provideFileSearchResults
        (Entry.dir [("xa", Entry.file [2]), ("ya", Entry.file [3]),
          ("sub", Entry.dir [("zb", Entry.file [4])])])
        "a" [] (some 2) false).length ≤ 2
    ∧ provideFileSearchResults
        (Entry.dir [("xa", Entry.file []), ("ya", Entry.file []), ("za", Entry.file [])])
        "a" [] (some 1) false = [["xa"]] :=
  fileSearch_single_dir_bound
    (Entry.dir [("xa", Entry.file [2]), ("ya", Entry.file [3]),
      ("sub", Entry.dir [("zb", Entry.file [4])])])
    "a" 2 [] false (by decide) (by decide)
    (by
      intro p name c hlk hmt
      cases p with
      | nil => rfl
      | cons a t =>
        exfalso
        rw [List.cons_append] at hlk
        simp only [lookupPath] at hlk
        cases hfe : findEntry [("xa", Entry.file [2]), ("ya", Entry.file [3]),
            ("sub", Entry.dir [("zb", Entry.file [4])])] a with
        | none =>
          rw [hfe] at hlk
          cases hlk
        | some child =>
          rw [hfe] at hlk
          dsimp only at hlk
          have hmem := findEntry_some_mem hfe
          simp only [List.mem_cons, List.not_mem_nil, or_false, Prod.mk.injEq] at hmem
          rcases hmem with ⟨_, h2⟩ | ⟨_, h2⟩ | ⟨_, h2⟩
          · subst h2
            exact lookupPath_file_append hlk
          · subst h2
            exact lookupPath_file_append hlk
          · subst h2
            cases t with
            | nil =>
              rw [List.nil_append] at hlk
              simp only [lookupPath] at hlk
              cases hfe2 : findEntry [("zb", Entry.file [4])] name with
              | none =>
                rw [hfe2] at hlk
                cases hlk
              | some child2 =>
                have hmem2 := findEntry_some_mem hfe2
                simp only [List.mem_cons, List.not_mem_nil, or_false,
                  Prod.mk.injEq] at hmem2
                rw [hmem2.1] at hmt
                exact absurd hmt (by decide)
            | cons b bs =>
              rw [List.cons_append] at hlk
              simp only [lookupPath] at hlk
              cases hfe2 : findEntry [("zb", Entry.file [4])] b with
              | none =>
                rw [hfe2] at hlk
                cases hlk
              | some child2 =>
                rw [hfe2] at hlk
                dsimp only at hlk
                have hmem2 := findEntry_some_mem hfe2
                simp only [List.mem_cons, List.not_mem_nil, or_false,
                  Prod.mk.injEq] at hmem2
                rw [hmem2.2] at hlk
                exact lookupPath_file_append hlk)
